import Mathlib

/-!
Verification of the x-search local hybrid retrieval engine.

This file embeds, in Lean, the retrieval core of the repository:

* `src/src/retrieval/vector_store.py` — `LocalVectorStore` (a FAISS
  `IndexFlatIP` plus a JSON metadata sidecar and an id lookup table);
* `src/src/retrieval/rag_pipeline.py` — `RAGPipeline` (vector search with a
  similarity threshold, lexical fallback, context formatting, answer
  generation, short-circuit on empty evidence).

Modelling conventions:

* Machine floats are modelled by exact rationals (`ℚ`): a stored embedding is
  kept as the rational vector handed to `add_items`.  FAISS L2-normalizes
  vectors at insertion and normalizes the query at search time, so the score
  FAISS returns for query `q` and stored vector `v` is the cosine
  `dot q v / (sqrt (dot q q) * sqrt (dot v v))`.  We represent that score
  exactly by the pair `Sim.mk (dot q v) (dot q q * dot v v)` whose real value
  is `num / sqrt den`, and implement the float comparisons the code performs
  (ranking, thresholding) as exact rational sign-and-square tests.
  FAISS leaves a zero vector unchanged when normalizing (`fvec_renorm_L2`
  guards on a positive norm), so a zero query or zero stored vector yields an
  exact inner product of `0`, which the model reproduces (`num = 0`).
* FAISS `IndexFlatIP.search` is an exact scan returning the `k` highest inner
  products in decreasing order; equal scores are returned in increasing id
  order (the deterministic tie-breaking the spec describes at the FAISS
  boundary).  `search` below models that contract.
* Python dict values are modelled by `Val`; nested lists and dicts are kept
  as references (`Val.vlist r`, `Val.vdict r`) into an ambient heap, because
  `dict(d)` copies only the top level of a dict — the sharing this creates is
  what claim C10 is about.  `Val.vother s` stands for any other Python object,
  carrying its `str()` rendering.
* External collaborators (the embedding provider, the Postgres full-text
  search, the LLM client, the analytics writer, the wall clock) are passed to
  the pipeline as function or number parameters; the repository code around
  them is embedded faithfully.
* Fallible Python code (a raised exception) is embedded as `Except`: the FAISS
  dimension assertion and the `np.vstack` shape error surface as error values,
  and the `try/except` blocks of the pipeline catch them.
-/

namespace XSearch

/-- Model of a Python value stored in a metadata dict.  Scalars are inlined;
lists and dicts are references into an ambient heap (Python objects are
reference values, and `dict(d)` copies only the top level).  `vother`
stands for any object of another type, carrying its `str()` rendering. -/
inductive Val where
  | vstr (s : String)
  | vint (n : Int)
  | vfloat (q : ℚ)
  | vbool (b : Bool)
  | vnull
  | vlist (r : Nat)
  | vdict (r : Nat)
  | vother (s : String)
deriving DecidableEq

/-- Model of a Python dict with string keys: an association list in insertion
order (Python dicts preserve insertion order; keys are unique). -/
abbrev Record := List (String × Val)

/-- Model of `d.get(k)`: the value stored under the first matching key, or
`none` when the key is absent. -/
def getVal (r : Record) (k : String) : Option Val :=
  (r.find? (fun p => p.1 == k)).map (fun p => p.2)

/-- Model of `str(v)` for a metadata value.  The renderings of floats, lists,
dicts and other objects are modelled textual forms; no claim in this file
depends on them. -/
def pyStr : Val → String
  | .vstr s => s
  | .vint n => toString n
  | .vfloat q => toString q.num ++ "/" ++ toString q.den
  | .vbool b => if b then "True" else "False"
  | .vnull => "None"
  | .vlist r => "[list ref " ++ toString r ++ "]"
  | .vdict r => "[dict ref " ++ toString r ++ "]"
  | .vother s => s

/-- Model of `LocalVectorStore._sanitize_metadata`: scalar values, `None`,
lists and dicts are kept as they are (lists and dicts keep the same
reference); any other object is replaced by its `str()` rendering. -/
def sanitize_metadata (m : Record) : Record :=
  m.map (fun p =>
    match p.2 with
    | .vother s => (p.1, Val.vstr s)
    | v => (p.1, v))

/-- The state of `LocalVectorStore`: the collection dimension, the id field
name, the FAISS index entries (stored embedding vectors, kept as the raw
rationals whose normalization FAISS stores), the metadata sidecar list, and
the id lookup table mapping an id string to its position. -/
structure LocalVectorStore where
  dimension : Nat
  id_field : String
  index : List (List ℚ)
  metadata : List Record
  id_lookup : List (String × Nat)
deriving DecidableEq

/-- Membership test of the id lookup table (`unique_id in self.id_lookup`). -/
def lookupMem (m : List (String × Nat)) (k : String) : Bool :=
  m.any (fun p => p.1 == k)

/-- Model of `self.id_lookup[unique_id] = pos`: replace the value under an
existing key, or append a new binding. -/
def lookupInsert (m : List (String × Nat)) (k : String) (v : Nat) : List (String × Nat) :=
  if lookupMem m k then m.map (fun p => if p.1 == k then (k, v) else p)
  else m ++ [(k, v)]

/-- Keys of the id lookup table. -/
def lookupKeys (m : List (String × Nat)) : List String := m.map Prod.fst

/-- The id string of a metadata record: `str(metadata.get(id_field))` when the
field is present and not `None`, following lines 72 to 76 of
`vector_store.py` (a missing field and a `None` value are both skipped). -/
def recId (idf : String) (md : Record) : Option String :=
  match getVal md idf with
  | none => none
  | some .vnull => none
  | some v => some (pyStr v)

/-- An entry of `add_items` that survived the filtering loop: its embedding
vector, its sanitized metadata, and its id string. -/
structure KeptEntry where
  vec : List ℚ
  md : Record
  uid : String
deriving DecidableEq

/-- One iteration of the filtering loop of `add_items` (lines 69 to 80 of
`vector_store.py`): skip the entry when the embedding or the metadata is
`None`, when the id field is missing or `None`, or when the id is already in
the lookup table; otherwise keep the embedding and the sanitized metadata.
The lookup table consulted is the one at call start: the loop never updates
`self.id_lookup`, so two entries with the same fresh id both survive. -/
def keepEntry (st : LocalVectorStore) (e : Option (List ℚ) × Option Record) :
    Option KeptEntry :=
  match e with
  | (none, _) => none
  | (some _, none) => none
  | (some emb, some md) =>
    match recId st.id_field md with
    | none => none
    | some uid =>
      if lookupMem st.id_lookup uid then none
      else some ⟨emb, sanitize_metadata md, uid⟩

/-- The entries of a batch that survive the filtering loop of `add_items`. -/
def keptOf (st : LocalVectorStore) (entries : List (Option (List ℚ) × Option Record)) :
    List KeptEntry :=
  entries.filterMap (keepEntry st)

/-- Exceptions `add_items` can raise: `np.vstack` rejects vectors of differing
lengths, and `faiss.Index.add` asserts that the batch width equals the index
dimension.  Both are raised before any store field is assigned, so a failing
call leaves the store unchanged. -/
inductive AddError where
  | shapeMismatch
  | dimMismatch
deriving DecidableEq

/-- Model of `LocalVectorStore.add_items` (lines 64 to 98 of
`vector_store.py`).  The batch is filtered entry by entry (`keepEntry`); an
empty surviving batch returns `0` without touching the store; otherwise the
vectors are stacked (raising when their lengths differ), added to the FAISS
index (raising when their common length differs from the index dimension),
the metadata records are appended, and the lookup table is updated with
`base + offset` for each record — a later duplicate id overwrites the
position an earlier one wrote.  Returns the number of entries stored. -/
def add_items (st : LocalVectorStore)
    (entries : List (Option (List ℚ) × Option Record)) :
    Except AddError (LocalVectorStore × Nat) :=
  match keptOf st entries with
  | [] => .ok (st, 0)
  | k0 :: ks =>
    if (k0 :: ks).any (fun e => e.vec.length ≠ k0.vec.length) then
      .error .shapeMismatch
    else if k0.vec.length ≠ st.dimension then
      .error .dimMismatch
    else
      .ok ({ st with
              index := st.index ++ (k0 :: ks).map (fun e => e.vec),
              metadata := st.metadata ++ (k0 :: ks).map (fun e => e.md),
              id_lookup := ((k0 :: ks).enum).foldl
                (fun acc p => lookupInsert acc p.2.uid (st.metadata.length + p.1))
                st.id_lookup },
           (k0 :: ks).length)

/-- A fresh `LocalVectorStore` (no persisted files, or unreadable ones). -/
def emptyStore (d : Nat) (idf : String) : LocalVectorStore :=
  ⟨d, idf, [], [], []⟩

/-- Inner product of two vectors (`np.dot` over the modelled rationals). -/
def dot (u v : List ℚ) : ℚ := (List.zipWith (fun a b => a * b) u v).sum

/-- Exact representation of a FAISS similarity score.  For query `q` and
stored vector `v` the float FAISS computes is the inner product of the two
L2-normalized vectors, the real number `num / sqrt den` with
`num = dot q v` and `den = dot q q * dot v v`.  When either vector is zero,
FAISS leaves it unnormalized (`fvec_renorm_L2` guards on a positive norm) and
the inner product is exactly `0`, matching `num = 0` here. -/
structure Sim where
  num : ℚ
  den : ℚ
deriving DecidableEq

/-- The score of query `q` against stored vector `v`. -/
def mkSim (q v : List ℚ) : Sim := ⟨dot q v, dot q q * dot v v⟩

/-- The score used for a result without a similarity field
(`item.get("similarity", 0)` with the float default `0`). -/
def simZero : Sim := ⟨0, 1⟩

/-- Sign of the real value `num / sqrt den` of a score: `0` when the
denominator vanishes (the value is `0`), otherwise the sign of `num`.
A nonpositive `den` never arises from `mkSim`; it is mapped to `0`. -/
def Sim.sgn (s : Sim) : Int :=
  if s.den ≤ 0 then 0 else if s.num < 0 then -1 else if s.num = 0 then 0 else 1

/-- Exact comparison of two scores: decides
`s.num / sqrt s.den ≤ t.num / sqrt t.den` by comparing signs and then
cross-multiplied squares.  This is the float comparison of the code carried
out in exact arithmetic. -/
def simLE (s t : Sim) : Bool :=
  if s.sgn < t.sgn then true
  else if t.sgn < s.sgn then false
  else if s.sgn = 1 then decide (s.num ^ 2 * t.den ≤ t.num ^ 2 * s.den)
  else if s.sgn = -1 then decide (t.num ^ 2 * s.den ≤ s.num ^ 2 * t.den)
  else true

/-- Exact comparison of a score against a rational threshold: decides
`T ≤ s.num / sqrt s.den`.  This is the float comparison
`item.get("similarity", 0) >= self.min_similarity` in exact arithmetic. -/
def simGeQ (s : Sim) (T : ℚ) : Bool :=
  if 0 < T then decide (s.sgn = 1) && decide (T ^ 2 * s.den ≤ s.num ^ 2)
  else if T = 0 then decide (0 ≤ s.sgn)
  else decide (0 ≤ s.sgn) || decide (s.num ^ 2 ≤ T ^ 2 * s.den)

/-- A search result: the Python code builds `dict(self.metadata[idx])` — a
fresh top-level copy of the stored record — and sets its `similarity` key to
the score.  The (irrational-valued) score is kept in a separate field because
`Val` models only exactly representable stored values; a result that never
went through vector search (a lexical row) has `sim = none`. -/
structure ResultItem where
  record : Record
  sim : Option Sim
deriving DecidableEq

/-- The exception `faiss.Index.search` raises when the query width differs
from the index dimension. -/
inductive SearchError where
  | dimMismatch
deriving DecidableEq

/-- Positions paired with their scores, in insertion order: what the FAISS
exact scan ranks (`scored st q = [(0, s₀), (1, s₁), ...]`). -/
def scored (st : LocalVectorStore) (q : List ℚ) : List (Nat × Sim) :=
  st.index.enum.map (fun p => (p.1, mkSim q p.2))

/-- The ranking order of the FAISS flat scan: higher score first, equal
scores in increasing position order. -/
def rankLE (a b : Nat × Sim) : Bool :=
  if simLE a.2 b.2 && simLE b.2 a.2 then decide (a.1 ≤ b.1) else simLE b.2 a.2

/-- Model of `LocalVectorStore.search` (lines 100 to 120 of
`vector_store.py`).  An empty index returns `[]` at once, before the query is
even reshaped.  Otherwise the query is normalized and handed to FAISS, which
asserts that its width equals the index dimension, clamps `top_k` to the
record count, and returns the `top_k` best (position, score) pairs in ranking
order; the wrapper then drops any position outside the metadata list
(`idx < 0 or idx >= len(self.metadata)`) and builds one result per surviving
position — a fresh top-level copy of the stored record (sharing its nested
references) with the score attached. -/
def search (st : LocalVectorStore) (q : List ℚ) (top_k : Nat) :
    Except SearchError (List ResultItem) :=
  if st.index.length = 0 then .ok []
  else if q.length ≠ st.dimension then .error .dimMismatch
  else
    let k := min top_k st.index.length
    let ranked := (scored st q).mergeSort rankLE
    let picked := ranked.take k
    .ok (((picked.filter (fun p => p.1 < st.metadata.length)).map
      (fun p => ⟨st.metadata.getD p.1 [], some p.2⟩)))

/-- Model of the Python idiom `x or default` on an optional integer argument:
`None` and `0` are falsy and select the default. -/
def pyOrNat (x : Option Nat) (dflt : Nat) : Nat :=
  match x with
  | none => dflt
  | some 0 => dflt
  | some n => n

/-- The configuration and state of `RAGPipeline`: the two vector stores of
`VectorStoreManager` and the settings the pipeline reads
(`TOP_K_RESULTS` default 20, `MIN_SIMILARITY_THRESHOLD` default 0.5,
`MAX_CONTEXT_TOKENS` default 4000, `MAX_DISPLAY_RESULTS` default 5). -/
structure RAGPipeline where
  tweet_store : LocalVectorStore
  link_store : LocalVectorStore
  top_k : Nat
  min_similarity : ℚ
  max_context_tokens : Nat
  max_display_results : Nat
deriving DecidableEq

/-- Model of `RAGPipeline.vector_search_tweets` (lines 63 to 76 of
`rag_pipeline.py`): resolve the limit (`limit or self.top_k`), search the
tweet store, and keep the results whose similarity is at least
`min_similarity`; any exception (in particular the FAISS dimension
assertion) is caught and turned into an empty list. -/
def vector_search_tweets (p : RAGPipeline) (query_embedding : List ℚ)
    (limit : Option Nat) : List ResultItem :=
  let l := pyOrNat limit p.top_k
  match search p.tweet_store query_embedding l with
  | .error _ => []
  | .ok results => results.filter (fun item => simGeQ ((item.sim).getD simZero) p.min_similarity)

/-- Model of `RAGPipeline.vector_search_links` (lines 78 to 91 of
`rag_pipeline.py`): as `vector_search_tweets`, over the link store. -/
def vector_search_links (p : RAGPipeline) (query_embedding : List ℚ)
    (limit : Option Nat) : List ResultItem :=
  let l := pyOrNat limit p.top_k
  match search p.link_store query_embedding l with
  | .error _ => []
  | .ok results => results.filter (fun item => simGeQ ((item.sim).getD simZero) p.min_similarity)

/-- Model of `RAGPipeline.keyword_search` (lines 93 to 118 of
`rag_pipeline.py`).  The Postgres full-text provider is the parameter `dbq`:
given the query text and the limit it returns ranked tweet rows, `none`
standing for a falsy result (`results or []`), and an exception standing for
a database failure; the wrapper catches failures and returns an empty list.
The default of the `limit` parameter is 50. -/
def keyword_search (dbq : String → Nat → Except Unit (Option (List Record)))
    (query : String) (limit : Nat := 50) : List Record :=
  match dbq query limit with
  | .error _ => []
  | .ok none => []
  | .ok (some rows) => rows

/-- Model of `RAGPipeline.hybrid_search` (lines 120 to 141 of
`rag_pipeline.py`).  The embedding provider is the parameter `embed`
(standing for `embed_query`, which returns `None` on any failure).  The limit
is resolved once (`limit or self.top_k`).  When the embedding is falsy
(`None` or an empty vector), the pipeline runs `keyword_search` over the
tweet collection with that resolved limit — not with the standalone default
50 — applies no similarity threshold, performs no vector search, and returns
an empty link list.  Otherwise both collections are vector searched with the
resolved limit. -/
def hybrid_search (p : RAGPipeline) (embed : String → Option (List ℚ))
    (dbq : String → Nat → Except Unit (Option (List Record)))
    (query : String) (limit : Option Nat) : List ResultItem × List ResultItem :=
  let l := pyOrNat limit p.top_k
  match embed query with
  | none => ((keyword_search dbq query l).map (fun r => ⟨r, none⟩), [])
  | some [] => ((keyword_search dbq query l).map (fun r => ⟨r, none⟩), [])
  | some qe => (vector_search_tweets p qe (some l), vector_search_links p qe (some l))

/-- Rendering of `d[k]` inside an f-string: `str` of the stored value.  The
`KeyError` a missing key would raise is not modelled (rendered as the absent
marker); no claim depends on it. -/
def recGetStr (r : Record) (k : String) : String :=
  match getVal r k with
  | some v => pyStr v
  | none => "N/A"

/-- Rendering of `d.get(k, dflt)` inside an f-string. -/
def pyGetStr (r : Record) (k : String) (dflt : String) : String :=
  match getVal r k with
  | some v => pyStr v
  | none => dflt

/-- Truthiness of a metadata value (Python `bool(v)`).  The truthiness of a
list or dict reference depends on the heap contents and is modelled as
truthy; no claim depends on it. -/
def pyTruthy : Val → Bool
  | .vstr s => s ≠ ""
  | .vint n => n ≠ 0
  | .vfloat q => q ≠ 0
  | .vbool b => b
  | .vnull => false
  | .vlist _ => true
  | .vdict _ => true
  | .vother _ => true

/-- Modelled rendering of the similarity float under a `:.3f` format.  The
exact decimal rendering of the (irrational-valued) score is not representable
in exact arithmetic; the exact numerator and denominator are rendered
instead.  No claim depends on this rendering.  A result without a similarity
field renders the default `0`. -/
def fmtSim : Option Sim → String
  | none => "0.000"
  | some s => toString s.num.num ++ "/" ++ toString s.num.den ++ "/sqrt(" ++
      toString s.den.num ++ "/" ++ toString s.den.den ++ ")"

/-- One numbered tweet entry of the context block (lines 156 to 161 of
`rag_pipeline.py`). -/
def renderTweet (i : Nat) (t : ResultItem) : String :=
  "[" ++ toString i ++ "] @" ++ recGetStr t.record "author_username" ++
    " (" ++ pyGetStr t.record "liked_at" "N/A" ++ ")\n    " ++
    recGetStr t.record "text" ++ "\n    URL: " ++
    pyGetStr t.record "url" "N/A" ++ "\n    Similarity: " ++
    fmtSim t.sim ++ "\n"

/-- One numbered link entry of the context block (lines 166 to 175 of
`rag_pipeline.py`), including the summary fallback
`link.get("summary", "") or link.get("content_text", "")[:500]`. -/
def renderLink (i : Nat) (l : ResultItem) : String :=
  let summaryVal := (getVal l.record "summary").getD (Val.vstr "")
  let summary :=
    if pyTruthy summaryVal then pyStr summaryVal
    else (pyStr ((getVal l.record "content_text").getD (Val.vstr ""))).take 500
  "[" ++ toString i ++ "] " ++ pyGetStr l.record "title" "Untitled" ++
    "\n    URL: " ++ recGetStr l.record "url" ++ "\n    Domain: " ++
    pyGetStr l.record "domain" "N/A" ++ "\n    From tweet by: @" ++
    pyGetStr l.record "tweet_author" "unknown" ++ "\n    Summary: " ++
    summary ++ "...\n    Similarity: " ++ fmtSim l.sim ++ "\n"

/-- The parts list `context_parts` of `format_context`: one labeled section
per non-empty result set, each showing at most its first 10 entries,
numbered from 1. -/
def contextParts (tweet_results link_results : List ResultItem) : List String :=
  (if tweet_results.isEmpty then [] else
    "=== RELEVANT TWEETS ===\n" ::
      (tweet_results.take 10).enum.map (fun p => renderTweet (p.1 + 1) p.2)) ++
  (if link_results.isEmpty then [] else
    "\n=== RELEVANT ARTICLES/CONTENT ===\n" ::
      (link_results.take 10).enum.map (fun p => renderLink (p.1 + 1) p.2))

/-- The fixed truncation marker appended when the context is cut. -/
def truncMarker : String := "\n\n[Context truncated due to length...]"

/-- Model of `RAGPipeline.format_context` (lines 143 to 185 of
`rag_pipeline.py`): build the full text first, estimate its token count as
`length // 4`, and when the estimate exceeds the maximum cut the text to
exactly `max_tokens * 4` characters and append the marker. -/
def format_context (p : RAGPipeline) (tweet_results link_results : List ResultItem)
    (max_tokens : Option Nat) : String :=
  let maxT := pyOrNat max_tokens p.max_context_tokens
  let context := String.join (contextParts tweet_results link_results)
  let estimated_tokens := context.length / 4
  if estimated_tokens > maxT then (context.take (maxT * 4)) ++ truncMarker
  else context

/-- The dict `generate_answer` returns.  The generator is an external LLM
client; every branch of `generate_answer` (missing key, provider answer,
provider failure) produces such a record.  `time_ms` is optional because the
branch without an LLM client omits the key (`llm_result.get("time_ms", 0)`
reads it back with a default). -/
structure LLMResult where
  answer : String
  model : Option String
  tokens : Nat
  time_ms : Option Nat
deriving DecidableEq

/-- The metadata block of a query response.  `model` and `tokens` are
optional because the short-circuit response of `RAGPipeline.query` omits
those keys entirely (`none` stands for an absent key). -/
structure QueryMetadata where
  tweets_found : Nat
  links_found : Nat
  search_time_ms : Nat
  llm_time_ms : Nat
  total_time_ms : Nat
  model : Option (Option String)
  tokens : Option Nat
deriving DecidableEq

/-- The response of `RAGPipeline.query`. -/
structure QueryResponse where
  query : String
  answer : String
  sources_tweets : List ResultItem
  sources_links : List ResultItem
  metadata : QueryMetadata
deriving DecidableEq

/-- The fixed answer of the short-circuit path. -/
def noContentAnswer : String :=
  "No relevant content found in your liked tweets. Try a different query."

/-- Model of `RAGPipeline.query` (lines 275 to 340 of `rag_pipeline.py`).
External effects are parameters: `embed` and `dbq` feed `hybrid_search`,
`genAnswer` is `generate_answer` (the LLM call), and the wall-clock readings
`searchTimeMs` and `totalTimeMs` abstract the `time.time()` differences.
When both result lists are empty the fixed no-content response is returned
at once: the generator is not called, the sources are empty, `llm_time_ms`
is the literal `0`, and the `model` and `tokens` keys are absent.  Otherwise
the context is formatted, the generator is called, the analytics insert
(`_save_query`, whose failures are swallowed and which never changes the
response) runs, and the response is assembled. -/
def queryRun (p : RAGPipeline) (embed : String → Option (List ℚ))
    (dbq : String → Nat → Except Unit (Option (List Record)))
    (genAnswer : String → String → LLMResult)
    (searchTimeMs totalTimeMs : Nat)
    (query_text : String) (return_sources : Bool := true) : QueryResponse :=
  let res := hybrid_search p embed dbq query_text none
  if res.1.isEmpty && res.2.isEmpty then
    { query := query_text
      answer := noContentAnswer
      sources_tweets := []
      sources_links := []
      metadata :=
        { tweets_found := 0, links_found := 0, search_time_ms := searchTimeMs,
          llm_time_ms := 0, total_time_ms := totalTimeMs,
          model := none, tokens := none } }
  else
    let context := format_context p res.1 res.2 none
    let llm := genAnswer query_text context
    { query := query_text
      answer := llm.answer
      sources_tweets := if return_sources then res.1.take p.max_display_results else []
      sources_links := if return_sources then res.2.take p.max_display_results else []
      metadata :=
        { tweets_found := res.1.length, links_found := res.2.length,
          search_time_ms := searchTimeMs, llm_time_ms := llm.time_ms.getD 0,
          total_time_ms := totalTimeMs,
          model := some llm.model, tokens := some llm.tokens } }

/-- A pipeline with the default settings of `settings.py`
(`TOP_K_RESULTS = 20`, `MIN_SIMILARITY_THRESHOLD = 0.5`,
`MAX_CONTEXT_TOKENS = 4000`, `MAX_DISPLAY_RESULTS = 5`,
`EMBEDDING_DIMENSION = 768`) over fresh stores. -/
def defaultPipeline : RAGPipeline :=
  ⟨emptyStore 768 "tweet_id", emptyStore 768 "link_id", 20, 1 / 2, 4000, 5⟩

/-- Model of an in-place `lst.append(v)` performed through a list reference:
the heap cell `r` gains the element, every other cell is unchanged. -/
def heapListAppend (lh : List (List Val)) (r : Nat) (v : Val) : List (List Val) :=
  lh.enum.map (fun p => if p.1 = r then p.2 ++ [v] else p.2)

/-- The list value a reference denotes in a heap. -/
def resolveList (lh : List (List Val)) : Val → Option (List Val)
  | .vlist r => lh.get? r
  | _ => none

/-- The real number a `Sim` score stands for: the inner product of the two
L2-normalized vectors, `num / sqrt den`.  This is the mathematical denotation
used only in specifications, never by the embedded code (which compares
scores through the exact tests `simLE` and `simGeQ`). -/
noncomputable def Sim.val (s : Sim) : ℝ := (s.num : ℝ) / Real.sqrt (s.den : ℝ)

/-- The id string an `add_items` batch entry carries, if any: the entry has a
metadata dict whose id field is present and not `None`. -/
def entryId (idf : String) (e : Option (List ℚ) × Option Record) : Option String :=
  e.2.bind (recId idf)

/-- The consistency invariant of a `LocalVectorStore`: the lookup table, the
metadata list and the FAISS index have the same size, the lookup keys are
distinct, the stored id strings are distinct, and every stored record has an
id that is a lookup key.  This is the bijectivity of the id lookup table the
spec describes, plus the bookkeeping needed to preserve it. -/
def StoreInv (st : LocalVectorStore) : Prop :=
  st.id_lookup.length = st.metadata.length ∧
  st.metadata.length = st.index.length ∧
  (lookupKeys st.id_lookup).Nodup ∧
  (st.metadata.filterMap (recId st.id_field)).Nodup ∧
  ∀ md ∈ st.metadata, ∃ uid, recId st.id_field md = some uid ∧
    lookupMem st.id_lookup uid = true

/-- The score at position `i` of a store, for query `q`. -/
def simAt (st : LocalVectorStore) (q : List ℚ) (i : Nat) : Sim :=
  mkSim q (st.index.getD i [])

/-- A one-record store of dimension 3, used to instantiate theorems with
hypotheses on concrete inputs. -/
def exampleStore3 : LocalVectorStore :=
  { dimension := 3, id_field := "tweet_id", index := [[1, 0, 0]],
    metadata := [[("tweet_id", Val.vstr "a")]], id_lookup := [("a", 0)] }

/-- A tweet row whose rendered context block is exactly 200 characters long
(24 header characters plus a 176-character entry), used to instantiate the
truncation theorem. -/
def tweet200 : ResultItem :=
  ⟨[("author_username", Val.vstr "u"), ("liked_at", Val.vstr "L"),
    ("text", Val.vstr "aaaaaaaaaaaaaaaaaaaaaaaaaaaaaaaaaaaaaaaaaaaaaaaaaaaaaaaaaaaaaaaaaaaaaaaaaaaaaaaaaaaaaaaaaaaaaaaaaaaaaaaaaaaaaaaaaaaaaaaaaaaaaaa"),
    ("url", Val.vstr "x")], none⟩

/-- A one-record store whose stored record holds a reference to heap cell 0,
used to exhibit the shallow-copy sharing of search results. -/
def sharedRefStore : LocalVectorStore :=
  { dimension := 1, id_field := "tweet_id", index := [[1]],
    metadata := [[("tweet_id", Val.vstr "a"), ("tags", Val.vlist 0)]],
    id_lookup := [("a", 0)] }

/-- The ambient list heap of the shared-reference example: cell 0 holds the
one-element list the stored record points to. -/
def sharedRefHeap : List (List Val) := [[Val.vstr "x"]]

/-! Theorems.  First the semantic bridge: the exact rational comparisons
`simLE` and `simGeQ` decide the real-number comparisons of the scores. -/

theorem dot_self_nonneg (v : List ℚ) : 0 ≤ dot v v := by
  induction v with
  | nil => simp [dot]
  | cons x xs ih =>
    have hx : 0 ≤ x * x := mul_self_nonneg x
    simpa [dot] using add_nonneg hx ih

theorem mkSim_den_nonneg (q v : List ℚ) : 0 ≤ (mkSim q v).den :=
  mul_nonneg (dot_self_nonneg q) (dot_self_nonneg v)

theorem sgn_cases (s : Sim) : s.sgn = -1 ∨ s.sgn = 0 ∨ s.sgn = 1 := by
  unfold Sim.sgn; split_ifs <;> simp

theorem sgn_eq_one_iff (s : Sim) : s.sgn = 1 ↔ 0 < s.den ∧ 0 < s.num := by
  constructor
  · intro h
    unfold Sim.sgn at h
    split_ifs at h with h1 h2 h3
    all_goals first
      | exact absurd h (by decide)
      | exact ⟨lt_of_not_ge h1, lt_of_le_of_ne (le_of_not_gt h2) (Ne.symm h3)⟩
  · rintro ⟨hd, hn⟩
    unfold Sim.sgn
    rw [if_neg (not_le.mpr hd), if_neg (not_lt.mpr hn.le), if_neg (ne_of_gt hn)]

theorem sgn_eq_negone_iff (s : Sim) : s.sgn = -1 ↔ 0 < s.den ∧ s.num < 0 := by
  constructor
  · intro h
    unfold Sim.sgn at h
    split_ifs at h with h1 h2 h3
    all_goals first
      | exact absurd h (by decide)
      | exact ⟨lt_of_not_ge h1, h2⟩
  · rintro ⟨hd, hn⟩
    unfold Sim.sgn
    rw [if_neg (not_le.mpr hd), if_pos hn]

theorem sgn_eq_zero_iff (s : Sim) : s.sgn = 0 ↔ s.den ≤ 0 ∨ s.num = 0 := by
  constructor
  · intro h
    unfold Sim.sgn at h
    split_ifs at h with h1 h2 h3
    all_goals first
      | exact Or.inl h1
      | exact absurd h (by decide)
      | exact Or.inr h3
  · intro h
    unfold Sim.sgn
    by_cases h1 : s.den ≤ 0
    · rw [if_pos h1]
    · rcases h with h | h
      · exact absurd h h1
      · rw [if_neg h1, if_neg (by simp [h]), if_pos h]

theorem val_eq_zero_of_den_zero {s : Sim} (h : s.den = 0) : s.val = 0 := by
  unfold Sim.val
  rw [show ((s.den : ℝ)) = 0 by exact_mod_cast h, Real.sqrt_zero, div_zero]

theorem val_pos_iff {s : Sim} (h : 0 ≤ s.den) : 0 < s.val ↔ s.sgn = 1 := by
  rcases eq_or_lt_of_le h with hz | hp
  · rw [val_eq_zero_of_den_zero hz.symm, sgn_eq_one_iff]
    constructor
    · intro h0; exact absurd h0 (lt_irrefl 0)
    · rintro ⟨hd, _⟩; exact absurd hd (by rw [← hz]; exact lt_irrefl 0)
  · have hs : 0 < Real.sqrt (s.den : ℝ) := Real.sqrt_pos.mpr (by exact_mod_cast hp)
    rw [sgn_eq_one_iff]
    unfold Sim.val
    constructor
    · intro h0
      refine ⟨hp, ?_⟩
      by_contra hn
      have : (s.num : ℝ) ≤ 0 := by exact_mod_cast le_of_not_gt hn
      have : (s.num : ℝ) / Real.sqrt (s.den : ℝ) ≤ 0 := div_nonpos_of_nonpos_of_nonneg this hs.le
      linarith
    · rintro ⟨_, hn⟩
      exact div_pos (by exact_mod_cast hn) hs

theorem val_neg_iff {s : Sim} (h : 0 ≤ s.den) : s.val < 0 ↔ s.sgn = -1 := by
  rcases eq_or_lt_of_le h with hz | hp
  · rw [val_eq_zero_of_den_zero hz.symm, sgn_eq_negone_iff]
    constructor
    · intro h0; exact absurd h0 (lt_irrefl 0)
    · rintro ⟨hd, _⟩; exact absurd hd (by rw [← hz]; exact lt_irrefl 0)
  · have hs : 0 < Real.sqrt (s.den : ℝ) := Real.sqrt_pos.mpr (by exact_mod_cast hp)
    rw [sgn_eq_negone_iff]
    unfold Sim.val
    constructor
    · intro h0
      refine ⟨hp, ?_⟩
      by_contra hn
      have : (0 : ℝ) ≤ (s.num : ℝ) := by exact_mod_cast le_of_not_gt hn
      have : (0 : ℝ) ≤ (s.num : ℝ) / Real.sqrt (s.den : ℝ) := div_nonneg this hs.le
      linarith
    · rintro ⟨_, hn⟩
      exact div_neg_of_neg_of_pos (by exact_mod_cast hn) hs

theorem val_zero_iff {s : Sim} (h : 0 ≤ s.den) : s.val = 0 ↔ s.sgn = 0 := by
  rcases sgn_cases s with hs | hs | hs
  · constructor
    · intro h0
      have := (val_neg_iff h).mpr hs
      linarith
    · intro h0; rw [hs] at h0; exact absurd h0 (by decide)
  · constructor
    · intro _; exact hs
    · intro _
      rcases (sgn_eq_zero_iff s).mp hs with hd | hn
      · exact val_eq_zero_of_den_zero (le_antisymm hd h)
      · unfold Sim.val
        rw [show ((s.num : ℝ)) = 0 by exact_mod_cast hn, zero_div]
  · constructor
    · intro h0
      have := (val_pos_iff h).mpr hs
      linarith
    · intro h0; rw [hs] at h0; exact absurd h0 (by decide)

theorem div_sqrt_le_div_sqrt_pos {a b c d : ℝ} (ha : 0 < a) (hb : 0 < b)
    (hc : 0 < c) (hd : 0 < d) :
    a / Real.sqrt b ≤ c / Real.sqrt d ↔ a ^ 2 * d ≤ c ^ 2 * b := by
  have e1 : a / Real.sqrt b = Real.sqrt (a ^ 2 / b) := by
    rw [Real.sqrt_div (by positivity) b, Real.sqrt_sq ha.le]
  have e2 : c / Real.sqrt d = Real.sqrt (c ^ 2 / d) := by
    rw [Real.sqrt_div (by positivity) d, Real.sqrt_sq hc.le]
  rw [e1, e2, Real.sqrt_le_sqrt_iff (by positivity), div_le_div_iff₀ hb hd]

theorem div_sqrt_le_div_sqrt_neg {a b c d : ℝ} (ha : a < 0) (hb : 0 < b)
    (hc : c < 0) (hd : 0 < d) :
    a / Real.sqrt b ≤ c / Real.sqrt d ↔ c ^ 2 * b ≤ a ^ 2 * d := by
  have h := div_sqrt_le_div_sqrt_pos (neg_pos.mpr hc) hd (neg_pos.mpr ha) hb
  rw [neg_div, neg_div, neg_le_neg_iff, neg_sq, neg_sq] at h
  rw [← h]

theorem simLE_of_sgn_lt {s t : Sim} (h : s.sgn < t.sgn) : simLE s t = true := by
  unfold simLE; rw [if_pos h]

theorem simLE_of_sgn_gt {s t : Sim} (h : t.sgn < s.sgn) : simLE s t = false := by
  unfold simLE; rw [if_neg (lt_asymm h), if_pos h]

theorem simLE_of_sgn_one {s t : Sim} (h : s.sgn = t.sgn) (h1 : s.sgn = 1) :
    simLE s t = decide (s.num ^ 2 * t.den ≤ t.num ^ 2 * s.den) := by
  unfold simLE
  rw [if_neg (by rw [h]; exact lt_irrefl _), if_neg (by rw [h]; exact lt_irrefl _), if_pos h1]

theorem simLE_of_sgn_negone {s t : Sim} (h : s.sgn = t.sgn) (h1 : s.sgn = -1) :
    simLE s t = decide (t.num ^ 2 * s.den ≤ s.num ^ 2 * t.den) := by
  unfold simLE
  rw [if_neg (by rw [h]; exact lt_irrefl _), if_neg (by rw [h]; exact lt_irrefl _),
    if_neg (by rw [h1]; decide), if_pos h1]

theorem simLE_of_sgn_zero {s t : Sim} (h : s.sgn = t.sgn) (h1 : s.sgn = 0) :
    simLE s t = true := by
  unfold simLE
  rw [if_neg (by rw [h]; exact lt_irrefl _), if_neg (by rw [h]; exact lt_irrefl _),
    if_neg (by rw [h1]; decide), if_neg (by rw [h1]; decide)]

theorem simLE_eq_true_iff {s t : Sim} (hs : 0 ≤ s.den) (ht : 0 ≤ t.den) :
    simLE s t = true ↔ s.val ≤ t.val := by
  rcases sgn_cases s with hs1 | hs1 | hs1 <;> rcases sgn_cases t with ht1 | ht1 | ht1
  · -- both negative
    obtain ⟨hsd, hsn⟩ := (sgn_eq_negone_iff s).mp hs1
    obtain ⟨htd, htn⟩ := (sgn_eq_negone_iff t).mp ht1
    rw [simLE_of_sgn_negone (hs1.trans ht1.symm) hs1, decide_eq_true_eq]
    unfold Sim.val
    rw [div_sqrt_le_div_sqrt_neg (by exact_mod_cast hsn) (by exact_mod_cast hsd)
      (by exact_mod_cast htn) (by exact_mod_cast htd)]
    constructor <;> intro h <;> exact_mod_cast h
  · -- s negative, t zero
    have hv : s.val < 0 := (val_neg_iff hs).mpr hs1
    have hv0 : t.val = 0 := (val_zero_iff ht).mpr ht1
    have hlt : s.sgn < t.sgn := by rw [hs1, ht1]; decide
    simp [simLE_of_sgn_lt hlt, hv0, hv.le]
  · -- s negative, t positive
    have hv : s.val < 0 := (val_neg_iff hs).mpr hs1
    have hv0 : 0 < t.val := (val_pos_iff ht).mpr ht1
    have hlt : s.sgn < t.sgn := by rw [hs1, ht1]; decide
    simp [simLE_of_sgn_lt hlt]
    linarith
  · -- s zero, t negative
    have hv : t.val < 0 := (val_neg_iff ht).mpr ht1
    have hv0 : s.val = 0 := (val_zero_iff hs).mpr hs1
    have hgt : t.sgn < s.sgn := by rw [hs1, ht1]; decide
    simp [simLE_of_sgn_gt hgt, hv0]
    linarith
  · -- both zero
    have h1 : s.val = 0 := (val_zero_iff hs).mpr hs1
    have h2 : t.val = 0 := (val_zero_iff ht).mpr ht1
    simp [simLE_of_sgn_zero (hs1.trans ht1.symm) hs1, h1, h2]
  · -- s zero, t positive
    have h1 : s.val = 0 := (val_zero_iff hs).mpr hs1
    have h2 : 0 < t.val := (val_pos_iff ht).mpr ht1
    have hlt : s.sgn < t.sgn := by rw [hs1, ht1]; decide
    simp [simLE_of_sgn_lt hlt, h1, h2.le]
  · -- s positive, t negative
    have h1 : 0 < s.val := (val_pos_iff hs).mpr hs1
    have h2 : t.val < 0 := (val_neg_iff ht).mpr ht1
    have hgt : t.sgn < s.sgn := by rw [hs1, ht1]; decide
    simp [simLE_of_sgn_gt hgt]
    linarith
  · -- s positive, t zero
    have h1 : 0 < s.val := (val_pos_iff hs).mpr hs1
    have h2 : t.val = 0 := (val_zero_iff ht).mpr ht1
    have hgt : t.sgn < s.sgn := by rw [hs1, ht1]; decide
    simp [simLE_of_sgn_gt hgt, h2]
    linarith
  · -- both positive
    obtain ⟨hsd, hsn⟩ := (sgn_eq_one_iff s).mp hs1
    obtain ⟨htd, htn⟩ := (sgn_eq_one_iff t).mp ht1
    rw [simLE_of_sgn_one (hs1.trans ht1.symm) hs1, decide_eq_true_eq]
    unfold Sim.val
    rw [div_sqrt_le_div_sqrt_pos (by exact_mod_cast hsn) (by exact_mod_cast hsd)
      (by exact_mod_cast htn) (by exact_mod_cast htd)]
    constructor <;> intro h <;> exact_mod_cast h

theorem le_div_sqrt_iff_pos {T a b : ℝ} (hT : 0 < T) (ha : 0 < a) (hb : 0 < b) :
    T ≤ a / Real.sqrt b ↔ T ^ 2 * b ≤ a ^ 2 := by
  have h := div_sqrt_le_div_sqrt_pos hT (by norm_num : (0 : ℝ) < 1) ha hb
  rw [Real.sqrt_one, div_one] at h
  simpa using h

theorem le_div_sqrt_iff_neg {T a b : ℝ} (hT : T < 0) (ha : a < 0) (hb : 0 < b) :
    T ≤ a / Real.sqrt b ↔ a ^ 2 ≤ T ^ 2 * b := by
  have h := div_sqrt_le_div_sqrt_neg hT (by norm_num : (0 : ℝ) < 1) ha hb
  rw [Real.sqrt_one, div_one] at h
  simpa using h

theorem simGeQ_eq_true_iff {s : Sim} (h : 0 ≤ s.den) (T : ℚ) :
    simGeQ s T = true ↔ (T : ℝ) ≤ s.val := by
  unfold simGeQ
  rcases lt_trichotomy 0 T with hT | hT | hT
  · rw [if_pos hT]
    by_cases h1 : s.sgn = 1
    · obtain ⟨hd, hn⟩ := (sgn_eq_one_iff s).mp h1
      have key : (T : ℝ) ≤ s.val ↔ T ^ 2 * s.den ≤ s.num ^ 2 := by
        unfold Sim.val
        rw [le_div_sqrt_iff_pos (by exact_mod_cast hT) (by exact_mod_cast hn)
          (by exact_mod_cast hd)]
        constructor <;> intro hx <;> exact_mod_cast hx
      rw [Bool.and_eq_true, decide_eq_true_eq, decide_eq_true_eq, key]
      exact and_iff_right h1
    · have hval : s.val ≤ 0 := by
        rcases sgn_cases s with hx | hx | hx
        · exact ((val_neg_iff h).mpr hx).le
        · exact ((val_zero_iff h).mpr hx).le
        · exact absurd hx h1
      constructor
      · intro hx
        rw [Bool.and_eq_true, decide_eq_true_eq, decide_eq_true_eq] at hx
        exact absurd hx.1 h1
      · intro hx
        exfalso
        have hT2 : (0 : ℝ) < (T : ℝ) := by exact_mod_cast hT
        linarith
  · rw [if_neg (by rw [← hT]; exact lt_irrefl 0), if_pos hT.symm]
    rw [← hT]
    push_cast
    constructor
    · intro hx
      rw [decide_eq_true_eq] at hx
      by_contra hc
      have hneg : s.val < 0 := lt_of_not_ge hc
      have := (val_neg_iff h).mp hneg
      rw [this] at hx
      exact absurd hx (by decide)
    · intro hx
      rw [decide_eq_true_eq]
      rcases sgn_cases s with hy | hy | hy
      · have := (val_neg_iff h).mpr hy
        linarith
      · rw [hy]
      · rw [hy]; decide
  · rw [if_neg (by intro hc; linarith), if_neg (ne_of_lt hT)]
    by_cases hneg : s.sgn = -1
    · obtain ⟨hd, hn⟩ := (sgn_eq_negone_iff s).mp hneg
      have h0 : ¬ (0 : Int) ≤ s.sgn := by rw [hneg]; decide
      have key : (T : ℝ) ≤ s.val ↔ s.num ^ 2 ≤ T ^ 2 * s.den := by
        unfold Sim.val
        rw [le_div_sqrt_iff_neg (by exact_mod_cast hT) (by exact_mod_cast hn)
          (by exact_mod_cast hd)]
        constructor <;> intro hx <;> exact_mod_cast hx
      simp only [Bool.or_eq_true, decide_eq_true_eq, h0, false_or]
      rw [key]
    · have hge : (0 : Int) ≤ s.sgn := by
        rcases sgn_cases s with hy | hy | hy
        · exact absurd hy hneg
        · rw [hy]
        · rw [hy]; decide
      have hval : (0 : ℝ) ≤ s.val := by
        by_contra hc
        exact hneg ((val_neg_iff h).mp (lt_of_not_ge hc))
      have hTv : (T : ℝ) ≤ s.val :=
        le_trans (le_of_lt (by exact_mod_cast hT)) hval
      simp [hge, hTv]

theorem simLE_total (s t : Sim) : (simLE s t || simLE t s) = true := by
  rcases lt_trichotomy s.sgn t.sgn with h | h | h
  · rw [simLE_of_sgn_lt h, Bool.true_or]
  · rcases sgn_cases s with h1 | h1 | h1
    · have h2 : t.sgn = -1 := h ▸ h1
      rcases le_total (t.num ^ 2 * s.den) (s.num ^ 2 * t.den) with hle | hle
      · rw [simLE_of_sgn_negone h h1]; simp [hle]
      · rw [simLE_of_sgn_negone h.symm h2]; simp [hle]
    · rw [simLE_of_sgn_zero h h1, Bool.true_or]
    · have h2 : t.sgn = 1 := h ▸ h1
      rcases le_total (s.num ^ 2 * t.den) (t.num ^ 2 * s.den) with hle | hle
      · rw [simLE_of_sgn_one h h1]; simp [hle]
      · rw [simLE_of_sgn_one h.symm h2]; simp [hle]
  · rw [simLE_of_sgn_lt h, Bool.or_true]

theorem simLE_sgn_le {s t : Sim} (h : simLE s t = true) : s.sgn ≤ t.sgn := by
  by_contra hc
  rw [simLE_of_sgn_gt (lt_of_not_ge hc)] at h
  exact Bool.false_ne_true h

theorem simLE_trans {a b c : Sim} (hab : simLE a b = true) (hbc : simLE b c = true) :
    simLE a c = true := by
  have h1 := simLE_sgn_le hab
  have h2 := simLE_sgn_le hbc
  rcases lt_or_eq_of_le (le_trans h1 h2) with h | h
  · exact simLE_of_sgn_lt h
  · have h2a : b.sgn ≤ a.sgn := by rw [h]; exact h2
    have hb1 : a.sgn = b.sgn := le_antisymm h1 h2a
    have hbc1 : b.sgn = c.sgn := hb1 ▸ h
    rcases sgn_cases a with hx | hx | hx
    · obtain ⟨had, han⟩ := (sgn_eq_negone_iff a).mp hx
      obtain ⟨hbd, hbn⟩ := (sgn_eq_negone_iff b).mp (hb1 ▸ hx)
      obtain ⟨hcd, hcn⟩ := (sgn_eq_negone_iff c).mp (h ▸ hx)
      rw [simLE_of_sgn_negone hb1 hx, decide_eq_true_eq] at hab
      rw [simLE_of_sgn_negone hbc1 (hb1 ▸ hx), decide_eq_true_eq] at hbc
      rw [simLE_of_sgn_negone h hx, decide_eq_true_eq]
      nlinarith [mul_le_mul_of_nonneg_right hab hcd.le,
        mul_le_mul_of_nonneg_right hbc had.le, hbd]
    · exact simLE_of_sgn_zero h hx
    · obtain ⟨had, han⟩ := (sgn_eq_one_iff a).mp hx
      obtain ⟨hbd, hbn⟩ := (sgn_eq_one_iff b).mp (hb1 ▸ hx)
      obtain ⟨hcd, hcn⟩ := (sgn_eq_one_iff c).mp (h ▸ hx)
      rw [simLE_of_sgn_one hb1 hx, decide_eq_true_eq] at hab
      rw [simLE_of_sgn_one hbc1 (hb1 ▸ hx), decide_eq_true_eq] at hbc
      rw [simLE_of_sgn_one h hx, decide_eq_true_eq]
      nlinarith [mul_le_mul_of_nonneg_right hab hcd.le,
        mul_le_mul_of_nonneg_right hbc had.le, hbd]

theorem rankLE_total (a b : Nat × Sim) : (rankLE a b || rankLE b a) = true := by
  unfold rankLE
  by_cases h : (simLE a.2 b.2 && simLE b.2 a.2) = true
  · have h2 : (simLE b.2 a.2 && simLE a.2 b.2) = true := by
      rw [Bool.and_comm]; exact h
    rw [if_pos h, if_pos h2]
    rcases Nat.le_total a.1 b.1 with hx | hx <;> simp [hx]
  · have h2 : ¬ (simLE b.2 a.2 && simLE a.2 b.2) = true := by
      rw [Bool.and_comm]; exact h
    rw [if_neg h, if_neg h2]
    exact simLE_total b.2 a.2

theorem rankLE_trans {a b c : Nat × Sim} (hab : rankLE a b = true)
    (hbc : rankLE b c = true) : rankLE a c = true := by
  unfold rankLE at hab hbc ⊢
  by_cases e1 : (simLE a.2 b.2 && simLE b.2 a.2) = true <;>
    by_cases e2 : (simLE b.2 c.2 && simLE c.2 b.2) = true
  · rw [if_pos e1] at hab
    rw [if_pos e2] at hbc
    rw [Bool.and_eq_true] at e1 e2
    have hac : simLE a.2 c.2 = true := simLE_trans e1.1 e2.1
    have hca : simLE c.2 a.2 = true := simLE_trans e2.2 e1.2
    rw [if_pos (by rw [Bool.and_eq_true]; exact ⟨hac, hca⟩)]
    rw [decide_eq_true_eq] at hab hbc ⊢
    omega
  · rw [if_pos e1] at hab
    rw [if_neg e2] at hbc
    rw [Bool.and_eq_true] at e1
    have hca : simLE c.2 a.2 = true := simLE_trans hbc e1.2
    have hne : ¬ (simLE a.2 c.2 && simLE c.2 a.2) = true := by
      rw [Bool.and_eq_true]
      rintro ⟨hac, -⟩
      exact e2 (by rw [Bool.and_eq_true]; exact ⟨simLE_trans e1.2 hac, hbc⟩)
    rw [if_neg hne]
    exact hca
  · rw [if_neg e1] at hab
    rw [if_pos e2] at hbc
    rw [Bool.and_eq_true] at e2
    have hca : simLE c.2 a.2 = true := simLE_trans e2.2 hab
    have hne : ¬ (simLE a.2 c.2 && simLE c.2 a.2) = true := by
      rw [Bool.and_eq_true]
      rintro ⟨hac, -⟩
      exact e1 (by rw [Bool.and_eq_true]; exact ⟨simLE_trans hac e2.2, hab⟩)
    rw [if_neg hne]
    exact hca
  · rw [if_neg e1] at hab
    rw [if_neg e2] at hbc
    have hca : simLE c.2 a.2 = true := simLE_trans hbc hab
    have hne : ¬ (simLE a.2 c.2 && simLE c.2 a.2) = true := by
      rw [Bool.and_eq_true]
      rintro ⟨hac, -⟩
      exact e1 (by rw [Bool.and_eq_true]; exact ⟨simLE_trans hac hbc, hab⟩)
    rw [if_neg hne]
    exact hca

/-! Helper lemmas about the lookup table and the add filter. -/

theorem lookupMem_append (m m2 : List (String × Nat)) (k : String) :
    lookupMem (m ++ m2) k = (lookupMem m k || lookupMem m2 k) := by
  simp [lookupMem, List.any_append]

theorem lookupMem_insert_self (m : List (String × Nat)) (k : String) (v : Nat) :
    lookupMem (lookupInsert m k v) k = true := by
  unfold lookupInsert
  by_cases h : lookupMem m k
  · rw [if_pos h]
    unfold lookupMem at h ⊢
    rw [List.any_eq_true] at h
    obtain ⟨p, hp, hpk⟩ := h
    rw [List.any_eq_true]
    refine ⟨(k, v), List.mem_map.mpr ⟨p, hp, by rw [if_pos hpk]⟩, by simp⟩
  · rw [if_neg h, lookupMem_append]
    simp [lookupMem]

theorem lookupInsert_of_not_mem {m : List (String × Nat)} {k : String}
    (h : lookupMem m k = false) (v : Nat) : lookupInsert m k v = m ++ [(k, v)] := by
  unfold lookupInsert
  rw [if_neg (by rw [h]; exact Bool.false_ne_true)]

theorem keepEntry_some {st : LocalVectorStore} {e : Option (List ℚ) × Option Record}
    {k : KeptEntry} (h : keepEntry st e = some k) :
    ∃ emb md, e = (some emb, some md) ∧ recId st.id_field md = some k.uid ∧
      lookupMem st.id_lookup k.uid = false ∧ k = ⟨emb, sanitize_metadata md, k.uid⟩ := by
  obtain ⟨a, b⟩ := e
  cases a with
  | none => simp [keepEntry] at h
  | some emb =>
    cases b with
    | none => simp [keepEntry] at h
    | some md =>
      simp only [keepEntry] at h
      cases hr : recId st.id_field md with
      | none => rw [hr] at h; dsimp only at h; cases h
      | some uid =>
        rw [hr] at h
        dsimp only at h
        by_cases hl : lookupMem st.id_lookup uid
        · rw [if_pos hl] at h; cases h
        · rw [if_neg hl] at h
          injection h with h2
          refine ⟨emb, md, rfl, ?_, ?_, ?_⟩
          · rw [hr, ← h2]
          · rw [← h2]
            simpa using hl
          · rw [← h2]

theorem recId_sanitize (idf : String) (md : Record) :
    recId idf (sanitize_metadata md) = recId idf md := by
  induction md with
  | nil => rfl
  | cons p tl ih =>
    obtain ⟨key, v⟩ := p
    by_cases hk : key == idf
    · unfold recId getVal sanitize_metadata
      cases v <;> simp [List.find?, hk, pyStr]
    · unfold recId getVal sanitize_metadata at ih ⊢
      cases v <;> simp only [List.map_cons, List.find?, hk] <;> exact ih

theorem mem_keptOf {st : LocalVectorStore}
    {entries : List (Option (List ℚ) × Option Record)} {k : KeptEntry}
    (h : k ∈ keptOf st entries) :
    lookupMem st.id_lookup k.uid = false ∧ recId st.id_field k.md = some k.uid := by
  obtain ⟨e, _, he⟩ := List.mem_filterMap.mp h
  obtain ⟨emb, md, -, hrec, hmem, hk⟩ := keepEntry_some he
  refine ⟨hmem, ?_⟩
  rw [hk]
  rw [recId_sanitize]
  rw [hk] at hrec
  exact hrec

theorem filterMap_sublist_of_imp {α β : Type} (f g : α → Option β)
    (h : ∀ a b, f a = some b → g a = some b) :
    ∀ l : List α, (l.filterMap f).Sublist (l.filterMap g) := by
  intro l
  induction l with
  | nil => simp
  | cons a tl ih =>
    rw [List.filterMap_cons, List.filterMap_cons]
    cases hfa : f a with
    | none =>
      cases g a with
      | none => exact ih
      | some c => exact ih.cons c
    | some b =>
      rw [h a b hfa]
      exact ih.cons₂ b

theorem keptOf_uids_sublist (st : LocalVectorStore)
    (entries : List (Option (List ℚ) × Option Record)) :
    ((keptOf st entries).map (fun k => k.uid)).Sublist
      (entries.filterMap (entryId st.id_field)) := by
  unfold keptOf
  rw [List.map_filterMap]
  refine filterMap_sublist_of_imp _ _ ?_ entries
  intro e u he
  obtain ⟨k, hk, hu⟩ := Option.map_eq_some'.mp he
  obtain ⟨emb, md, hemb, hrec, -, -⟩ := keepEntry_some hk
  rw [hemb]
  unfold entryId
  rw [hu] at hrec
  exact hrec

theorem foldl_lookupInsert_fresh {β : Type} (key : β → String) (pos : β → Nat) :
    ∀ (L : List β) (m : List (String × Nat)),
      (L.map key).Nodup → (∀ b ∈ L, lookupMem m (key b) = false) →
      L.foldl (fun acc b => lookupInsert acc (key b) (pos b)) m =
        m ++ L.map (fun b => (key b, pos b)) := by
  intro L
  induction L with
  | nil => intro m _ _; simp
  | cons b tl ih =>
    intro m hnd hfresh
    rw [List.foldl_cons, lookupInsert_of_not_mem (hfresh b (List.mem_cons_self b tl)) (pos b)]
    rw [List.map_cons] at hnd
    have hfresh2 : ∀ x ∈ tl, lookupMem (m ++ [(key b, pos b)]) (key x) = false := by
      intro x hx
      rw [lookupMem_append, Bool.or_eq_false_iff]
      refine ⟨hfresh x (List.mem_cons_of_mem b hx), ?_⟩
      have hne : key x ≠ key b := by
        intro hcontra
        exact (List.nodup_cons.mp hnd).1 (hcontra ▸ List.mem_map_of_mem key hx)
      simp [lookupMem, beq_eq_false_iff_ne]
      exact fun hc => hne hc.symm
    rw [ih (m ++ [(key b, pos b)]) (List.nodup_cons.mp hnd).2 hfresh2]
    simp

/-- C4: ingestion is idempotent.  If a call `add_items st [e]` succeeds
(returning some count), then adding the same entry again returns
`added_count = 0` and leaves the store — in particular the total stored
record count — unchanged: the second call returns the same state `st1`.
When the entry was actually stored, its id is in the lookup table afterwards,
so the filtering loop skips it silently the second time. -/
theorem C4_idempotent_readd (st st1 : LocalVectorStore)
    (e : Option (List ℚ) × Option Record) (c : Nat)
    (h : add_items st [e] = .ok (st1, c)) :
    add_items st1 [e] = .ok (st1, 0) := by
  unfold add_items at h ⊢
  cases hke : keepEntry st e with
  | none =>
    have hk : keptOf st [e] = [] := by simp [keptOf, List.filterMap_cons, hke]
    rw [hk] at h
    simp only [Except.ok.injEq, Prod.mk.injEq] at h
    obtain ⟨hst, -⟩ := h
    subst hst
    rw [hk]
  | some k0 =>
    have hk : keptOf st [e] = [k0] := by simp [keptOf, List.filterMap_cons, hke]
    rw [hk] at h
    dsimp only at h
    rw [if_neg (by simp)] at h
    by_cases hdim : k0.vec.length ≠ st.dimension
    · rw [if_pos hdim] at h; cases h
    · rw [if_neg hdim] at h
      simp only [Except.ok.injEq, Prod.mk.injEq] at h
      obtain ⟨hst, -⟩ := h
      obtain ⟨emb, md, hemb, hrec, hmem, hkk⟩ := keepEntry_some hke
      have hmem1 : lookupMem st1.id_lookup k0.uid = true := by
        rw [← hst]
        show lookupMem (List.foldl
          (fun acc p => lookupInsert acc p.2.uid (st.metadata.length + p.1))
          st.id_lookup [k0].enum) k0.uid = true
        rw [show [k0].enum = [(0, k0)] from rfl, List.foldl_cons, List.foldl_nil]
        exact lookupMem_insert_self _ _ _
      have hke1 : keepEntry st1 e = none := by
        rw [hemb]
        simp only [keepEntry]
        have hfield : st1.id_field = st.id_field := by rw [← hst]
        rw [hfield]
        cases hr1 : recId st.id_field md with
        | none => rfl
        | some uid =>
          dsimp only
          have : uid = k0.uid := by
            rw [hemb] at hke
            simp only [keepEntry, hr1] at hke
            by_cases hl : lookupMem st.id_lookup uid
            · rw [if_pos hl] at hke; cases hke
            · rw [if_neg hl] at hke
              injection hke with h2
              rw [← h2]
          rw [this, hmem1]
          simp
      have hk1 : keptOf st1 [e] = [] := by simp [keptOf, List.filterMap_cons, hke1]
      rw [hk1]

/-- C4 witness: a concrete run of `C4_idempotent_readd`.  A fresh
one-dimensional store accepts the entry `(vec [1], id "a")` with count 1, and
re-adding it yields count 0 with the state unchanged. -/
theorem C4_idempotent_readd_witness :
    add_items
      { dimension := 1, id_field := "tweet_id", index := [[1]],
        metadata := [[("tweet_id", Val.vstr "a")]], id_lookup := [("a", 0)] }
      [(some [1], some [("tweet_id", Val.vstr "a")])] =
      .ok ({ dimension := 1, id_field := "tweet_id", index := [[1]],
             metadata := [[("tweet_id", Val.vstr "a")]], id_lookup := [("a", 0)] }, 0) :=
  C4_idempotent_readd (emptyStore 1 "tweet_id") _ _ 1 (by rfl)

/-- C2 counterexample: on an empty store, a query whose length (2) differs
from the collection dimension (3) is not rejected — `search` silently returns
the empty list with no error, because the empty-index early return (line 102
of `vector_store.py`) runs before the query is reshaped or handed to FAISS.
This falsifies the claim that every wrong-dimension query is rejected with a
dimension-mismatch error before any comparison. -/
theorem C2_counterexample_empty_store :
    search (emptyStore 3 "tweet_id") [1, 0] 5 = .ok [] ∧
      search (emptyStore 3 "tweet_id") [1, 0] 5 ≠ .error .dimMismatch := by
  refine ⟨rfl, ?_⟩
  intro h
  rw [show search (emptyStore 3 "tweet_id") [1, 0] 5 = .ok [] from rfl] at h
  cases h

/-- C2 amended: on a store with at least one record, a query vector whose
length differs from the collection dimension makes `search` fail with the
dimension-mismatch error (the FAISS assertion) before any comparison is
attempted; the pipeline wrapper `vector_search_tweets`, however, catches that
error and returns an empty list rather than propagating it. -/
theorem C2_amended_dim_rejected (st : LocalVectorStore) (q : List ℚ) (k : Nat)
    (h1 : st.index.length ≠ 0) (h2 : q.length ≠ st.dimension) :
    search st q k = .error .dimMismatch ∧
      ∀ p : RAGPipeline, p.tweet_store = st → vector_search_tweets p q (some k) = [] := by
  have hs : ∀ l, search st q l = .error .dimMismatch := by
    intro l
    unfold search
    rw [if_neg h1, if_pos h2]
  refine ⟨hs k, ?_⟩
  intro p hp
  simp only [vector_search_tweets, hp, hs]

/-- C2 amended witness: the one-record dimension-3 store rejects the
length-2 query `[1, 0]`. -/
theorem C2_amended_dim_rejected_witness :
    (exampleStore3.index.length ≠ 0 ∧
        ([(1 : ℚ), 0].length ≠ exampleStore3.dimension)) ∧
      (search exampleStore3 [1, 0] 5 = .error .dimMismatch ∧
        ∀ p : RAGPipeline, p.tweet_store = exampleStore3 →
          vector_search_tweets p [1, 0] (some 5) = []) :=
  ⟨⟨by decide, by decide⟩,
    C2_amended_dim_rejected exampleStore3 [1, 0] 5 (by decide) (by decide)⟩

/-- C3 counterexample: on an empty store of dimension 2, a batch holding a
valid entry (id a, vector length 2) and a wrong-length entry (id b, vector
length 3) makes the whole `add_items` call raise (`np.vstack` rejects the
ragged stack): the call returns no count and the valid entry is NOT stored.
This falsifies the claim that the wrong-length entry is rejected without
aborting the rest of the batch. -/
theorem C3_counterexample_batch_aborts :
    add_items (emptyStore 2 "tweet_id")
      [(some [1, 0], some [("tweet_id", Val.vstr "a")]),
       (some [1, 0, 0], some [("tweet_id", Val.vstr "b")])] =
      .error .shapeMismatch := by rfl

/-- C3 amended: a surviving batch entry whose vector length differs from the
collection dimension makes the whole `add_items` call raise — either the
numpy vstack shape error (lengths differ inside the batch) or the FAISS
dimension assertion (uniform but wrong length).  No entry of the batch,
valid or not, is stored, and no count is returned; the store fields are
assigned only after both checks, so a failing call leaves the store
unchanged. -/
theorem C3_amended_wrong_length_aborts (st : LocalVectorStore)
    (entries : List (Option (List ℚ) × Option Record))
    (h : ∃ k ∈ keptOf st entries, k.vec.length ≠ st.dimension) :
    ∃ err, add_items st entries = .error err := by
  obtain ⟨k, hk, hlen⟩ := h
  unfold add_items
  cases hke : keptOf st entries with
  | nil => rw [hke] at hk; cases hk
  | cons k0 ks =>
    rw [hke] at hk
    dsimp only
    by_cases hshape : ((k0 :: ks).any fun e => decide (e.vec.length ≠ k0.vec.length)) = true
    · refine ⟨.shapeMismatch, ?_⟩
      rw [if_pos hshape]
    · have hall : ∀ e ∈ (k0 :: ks), e.vec.length = k0.vec.length := by
        intro e he
        by_contra hc
        exact hshape (List.any_eq_true.mpr ⟨e, he, by simpa using hc⟩)
      have hdim : k0.vec.length ≠ st.dimension := by
        rw [← hall k hk]
        exact hlen
      refine ⟨.dimMismatch, ?_⟩
      rw [if_neg hshape, if_pos hdim]

/-- C3 amended witness: a batch whose single surviving entry has vector
length 3 on a dimension-2 store makes the call fail. -/
theorem C3_amended_wrong_length_aborts_witness :
    (∃ k ∈ keptOf (emptyStore 2 "tweet_id")
        [(some [1, 0, 0], some [("tweet_id", Val.vstr "a")])],
        k.vec.length ≠ (emptyStore 2 "tweet_id").dimension) ∧
      ∃ err, add_items (emptyStore 2 "tweet_id")
        [(some [1, 0, 0], some [("tweet_id", Val.vstr "a")])] = .error err :=
  ⟨by decide, C3_amended_wrong_length_aborts _ _ (by decide)⟩

theorem lookupMem_iff_mem_keys (m : List (String × Nat)) (k : String) :
    lookupMem m k = true ↔ k ∈ lookupKeys m := by
  unfold lookupMem lookupKeys
  rw [List.any_eq_true]
  constructor
  · rintro ⟨p, hp, hpk⟩
    rw [beq_iff_eq] at hpk
    exact hpk ▸ List.mem_map_of_mem Prod.fst hp
  · intro h
    obtain ⟨p, hp, hpk⟩ := List.mem_map.mp h
    exact ⟨p, hp, by rw [beq_iff_eq]; exact hpk⟩

theorem filterMap_eq_map_of_forall {α β : Type} (f : α → Option β) (g : α → β) :
    ∀ l : List α, (∀ a ∈ l, f a = some (g a)) → l.filterMap f = l.map g := by
  intro l
  induction l with
  | nil => intro _; rfl
  | cons a tl ih =>
    intro h
    rw [List.filterMap_cons, h a (List.mem_cons_self a tl), List.map_cons,
      ih (fun x hx => h x (List.mem_cons_of_mem a hx))]

theorem mem_enum_of_mem {α : Type} {k : α} {l : List α} (h : k ∈ l) :
    ∃ i, (i, k) ∈ l.enum := by
  rw [← List.enum_map_snd l] at h
  obtain ⟨p, hp, hpk⟩ := List.mem_map.mp h
  obtain ⟨i, x⟩ := p
  exact ⟨i, by rw [show x = k from hpk] at hp; exact hp⟩

/-- C1 counterexample: one `add_items` batch that repeats the fresh id a
breaks the bijectivity of the lookup table.  The filtering loop checks each
entry against the lookup table as it was at call start, so both copies
survive; the index and the metadata list gain two entries while the second
lookup insertion overwrites the first.  Afterwards the lookup table has 1
entry but the store holds 2 records (and the stored ids are not unique),
falsifying the claimed invariant for batches with a repeated id. -/
theorem C1_counterexample_dup_id_batch :
    add_items (emptyStore 1 "tweet_id")
      [(some [1], some [("tweet_id", Val.vstr "a")]),
       (some [1], some [("tweet_id", Val.vstr "a")])] =
      .ok ({ dimension := 1, id_field := "tweet_id", index := [[1], [1]],
             metadata := [[("tweet_id", Val.vstr "a")], [("tweet_id", Val.vstr "a")]],
             id_lookup := [("a", 1)] }, 2) ∧
      (1 : Nat) ≠ 2 := ⟨rfl, by decide⟩

/-- C1 amended: for batches in which no two entries carry the same id, every
successful `add_items` call preserves the store invariant: the lookup table,
the metadata list and the FAISS index have equal sizes (the lookup table is
bijective with the stored records) and the stored ids are unique.  Failing
calls raise before assigning any store field, and `emptyStore` satisfies the
invariant, so every reachable store built from duplicate-free batches
satisfies it after each call. -/
theorem C1_amended_invariant_preserved (st st1 : LocalVectorStore)
    (entries : List (Option (List ℚ) × Option Record)) (n : Nat)
    (hinv : StoreInv st)
    (hbatch : (entries.filterMap (entryId st.id_field)).Nodup)
    (h : add_items st entries = .ok (st1, n)) :
    StoreInv st1 ∧ st1.id_lookup.length = st1.metadata.length ∧
      st1.metadata.length = st1.index.length := by
  suffices hS : StoreInv st1 from ⟨hS, hS.1, hS.2.1⟩
  unfold add_items at h
  cases hke : keptOf st entries with
  | nil =>
    rw [hke] at h
    dsimp only at h
    simp only [Except.ok.injEq, Prod.mk.injEq] at h
    obtain ⟨hst, -⟩ := h
    rw [← hst]
    exact hinv
  | cons k0 ks =>
    rw [hke] at h
    dsimp only at h
    by_cases hshape : ((k0 :: ks).any fun e => decide (e.vec.length ≠ k0.vec.length)) = true
    · rw [if_pos hshape] at h; cases h
    · rw [if_neg hshape] at h
      by_cases hdim : k0.vec.length ≠ st.dimension
      · rw [if_pos hdim] at h; cases h
      · rw [if_neg hdim] at h
        simp only [Except.ok.injEq, Prod.mk.injEq] at h
        obtain ⟨hst, -⟩ := h
        obtain ⟨l1, l2, l3, l4, l5⟩ := hinv
        have hmem : ∀ k ∈ (k0 :: ks), lookupMem st.id_lookup k.uid = false ∧
            recId st.id_field k.md = some k.uid := fun k hk => mem_keptOf (hke ▸ hk)
        have huidnd : ((k0 :: ks).map (fun k => k.uid)).Nodup := by
          have hsub := keptOf_uids_sublist st entries
          rw [hke] at hsub
          exact hbatch.sublist hsub
        have henum_uid : ((k0 :: ks).enum).map (fun p => p.2.uid) =
            (k0 :: ks).map (fun k => k.uid) := by
          have h1 : ((k0 :: ks).enum).map (fun p : Nat × KeptEntry => p.2.uid) =
              (((k0 :: ks).enum).map Prod.snd).map (fun k => k.uid) := by
            rw [List.map_map]
            rfl
          rw [h1, List.enum_map_snd]
        have hsnd_mem : ∀ p ∈ (k0 :: ks).enum, p.2 ∈ (k0 :: ks) := by
          intro p hp
          rw [← List.enum_map_snd (k0 :: ks)]
          exact List.mem_map_of_mem Prod.snd hp
        have hfold : ((k0 :: ks).enum).foldl
            (fun acc p => lookupInsert acc p.2.uid (st.metadata.length + p.1))
            st.id_lookup =
            st.id_lookup ++
              ((k0 :: ks).enum).map (fun p => (p.2.uid, st.metadata.length + p.1)) := by
          apply foldl_lookupInsert_fresh
          · rw [henum_uid]
            exact huidnd
          · intro p hp
            exact (hmem p.2 (hsnd_mem p hp)).1
        subst hst
        unfold StoreInv
        dsimp only
        rw [hfold]
        have hkeptids : ((k0 :: ks).map (fun e => e.md)).filterMap (recId st.id_field) =
            (k0 :: ks).map (fun k => k.uid) := by
          rw [List.filterMap_map]
          apply filterMap_eq_map_of_forall
          intro k hk
          exact (hmem k hk).2
        refine ⟨?_, ?_, ?_, ?_, ?_⟩
        · simp [List.length_append, List.enum_length, l1]
        · simp [List.length_append, l2]
        · unfold lookupKeys
          rw [List.map_append]
          refine List.Nodup.append l3 ?_ ?_
          · rw [List.map_map]
            show (((k0 :: ks).enum).map (fun p => p.2.uid)).Nodup
            rw [henum_uid]
            exact huidnd
          · intro a ha hb
            rw [List.map_map] at hb
            obtain ⟨p, hp, hpa⟩ := List.mem_map.mp hb
            have hfalse := (hmem p.2 (hsnd_mem p hp)).1
            have htrue : lookupMem st.id_lookup a = true :=
              (lookupMem_iff_mem_keys st.id_lookup a).mpr ha
            rw [show p.2.uid = a from hpa] at hfalse
            rw [htrue] at hfalse
            cases hfalse
        · rw [List.filterMap_append, hkeptids]
          refine List.Nodup.append l4 huidnd ?_
          intro a ha hb
          obtain ⟨md, hmd, hrec⟩ := List.mem_filterMap.mp ha
          obtain ⟨uid, hu1, hu2⟩ := l5 md hmd
          have hua : uid = a := by
            rw [hrec] at hu1
            injection hu1 with hv
            exact hv.symm
          obtain ⟨k, hk, hkuid⟩ := List.mem_map.mp hb
          have hkf := (hmem k hk).1
          rw [hkuid] at hkf
          rw [hua] at hu2
          rw [hu2] at hkf
          cases hkf
        · intro md hmd
          rw [List.mem_append] at hmd
          rcases hmd with hmd | hmd
          · obtain ⟨uid, h1, h2⟩ := l5 md hmd
            refine ⟨uid, h1, ?_⟩
            rw [lookupMem_append, h2, Bool.true_or]
          · obtain ⟨k, hk, hmdk⟩ := List.mem_map.mp hmd
            refine ⟨k.uid, by rw [← hmdk]; exact (hmem k hk).2, ?_⟩
            rw [lookupMem_append]
            have hnewmem : lookupMem
                (((k0 :: ks).enum).map (fun p => (p.2.uid, st.metadata.length + p.1)))
                k.uid = true := by
              rw [lookupMem_iff_mem_keys]
              unfold lookupKeys
              rw [List.map_map]
              obtain ⟨i, hik⟩ := mem_enum_of_mem hk
              exact List.mem_map.mpr ⟨(i, k), hik, rfl⟩
            rw [hnewmem, Bool.or_true]

/-- C1 amended witness: a fresh store satisfies the invariant, and a batch
of two distinct ids preserves it. -/
theorem C1_amended_invariant_preserved_witness :
    (StoreInv (emptyStore 1 "tweet_id") ∧
      ([(some ([1] : List ℚ), some ([("tweet_id", Val.vstr "a")] : Record)),
        (some [1], some [("tweet_id", Val.vstr "b")])].filterMap
          (entryId (emptyStore 1 "tweet_id").id_field)).Nodup) ∧
      ∃ st1, StoreInv st1 ∧ st1.id_lookup.length = st1.metadata.length ∧
        st1.metadata.length = st1.index.length := by
  have h1 : StoreInv (emptyStore 1 "tweet_id") := by
    refine ⟨rfl, rfl, List.nodup_nil, List.nodup_nil, ?_⟩
    intro md hmd
    cases hmd
  have h2 : ([(some ([1] : List ℚ), some ([("tweet_id", Val.vstr "a")] : Record)),
      (some [1], some [("tweet_id", Val.vstr "b")])].filterMap
        (entryId (emptyStore 1 "tweet_id").id_field)).Nodup := by decide
  refine ⟨⟨h1, h2⟩, ?_⟩
  obtain ⟨hS, hl⟩ := C1_amended_invariant_preserved (emptyStore 1 "tweet_id")
    { dimension := 1, id_field := "tweet_id", index := [[1], [1]],
      metadata := [[("tweet_id", Val.vstr "a")], [("tweet_id", Val.vstr "b")]],
      id_lookup := [("a", 0), ("b", 1)] } _ 2 h1 h2 (by rfl)
  exact ⟨_, hS, hl⟩

theorem scored_length (st : LocalVectorStore) (q : List ℚ) :
    (scored st q).length = st.index.length := by
  simp [scored, List.enum_length]

theorem mem_scored_of_lt {st : LocalVectorStore} {q : List ℚ} {i : Nat}
    (h : i < st.index.length) : (i, simAt st q i) ∈ scored st q := by
  unfold scored
  have hlen : i < st.index.enum.length := by rw [List.enum_length]; exact h
  have henum : (i, st.index[i]) ∈ st.index.enum := by
    rw [← List.getElem_enum st.index i hlen]
    exact List.getElem_mem hlen
  have hgd : simAt st q i = mkSim q st.index[i] := by
    unfold simAt
    rw [List.getD_eq_getElem st.index [] h]
  rw [hgd]
  exact List.mem_map.mpr ⟨(i, st.index[i]), henum, rfl⟩

theorem mem_scored_elim {st : LocalVectorStore} {q : List ℚ} {p : Nat × Sim}
    (h : p ∈ scored st q) : p.1 < st.index.length ∧ p = (p.1, simAt st q p.1) := by
  unfold scored at h
  obtain ⟨e, he, hpe⟩ := List.mem_map.mp h
  obtain ⟨hlt, hx⟩ := List.mem_enum he
  obtain ⟨i, v⟩ := e
  simp only at hpe hx hlt
  refine ⟨by rw [← hpe]; exact hlt, ?_⟩
  rw [← hpe]
  simp only
  unfold simAt
  rw [List.getD_eq_getElem st.index [] hlt, ← hx]

theorem list_eq_map_fst {α β : Type} (f : α → β) :
    ∀ L : List (α × β), (∀ p ∈ L, p.2 = f p.1) →
      L = (L.map Prod.fst).map (fun a => (a, f a)) := by
  intro L
  induction L with
  | nil => intro _; rfl
  | cons p tl ih =>
    intro h
    rw [List.map_cons, List.map_cons,
      ← ih (fun x hx => h x (List.mem_cons_of_mem p hx))]
    have hp : p = (p.1, f p.1) := by
      have := h p (List.mem_cons_self p tl)
      obtain ⟨a, b⟩ := p
      simp only at this
      rw [this]
    rw [← hp]

/-- Characterization of a successful search on a nonempty, consistent store:
there is a list of positions `ps` such that the results are exactly the
records at those positions (each a top-level copy with the score attached),
`ps` has length `min top_k n`, its positions are distinct and in range, `ps`
is sorted by the FAISS ranking order, and every position outside `ps` ranks
no higher than every position inside. -/
theorem search_ok_spec (st : LocalVectorStore) (q : List ℚ) (k : Nat)
    (hmd : st.metadata.length = st.index.length) (hq : q.length = st.dimension)
    (hne : st.index.length ≠ 0) :
    ∃ ps : List Nat,
      search st q k = .ok (ps.map (fun i =>
        (⟨st.metadata.getD i [], some (simAt st q i)⟩ : ResultItem))) ∧
      ps.length = min k st.index.length ∧
      ps.Nodup ∧
      (∀ i ∈ ps, i < st.index.length) ∧
      List.Pairwise (fun i j => rankLE (i, simAt st q i) (j, simAt st q j) = true) ps ∧
      (∀ i ∈ ps, ∀ j, j < st.index.length → j ∉ ps →
        rankLE (i, simAt st q i) (j, simAt st q j) = true) := by
  have hsearch : search st q k =
      .ok (((((scored st q).mergeSort rankLE).take (min k st.index.length)).filter
        (fun p => p.1 < st.metadata.length)).map
        (fun p => ⟨st.metadata.getD p.1 [], some p.2⟩)) := by
    unfold search
    rw [if_neg hne, if_neg (show ¬ q.length ≠ st.dimension from fun hc => hc hq)]
  have hperm : ((scored st q).mergeSort rankLE).Perm (scored st q) :=
    List.mergeSort_perm (scored st q) rankLE
  have hsorted : List.Pairwise (fun a b => rankLE a b = true)
      ((scored st q).mergeSort rankLE) :=
    @List.sorted_mergeSort _ rankLE (fun a b c hab hbc => rankLE_trans hab hbc)
      rankLE_total (scored st q)
  have hmemranked : ∀ p ∈ (scored st q).mergeSort rankLE,
      p.1 < st.index.length ∧ p = (p.1, simAt st q p.1) :=
    fun p hp => mem_scored_elim (hperm.mem_iff.mp hp)
  have hmempicked : ∀ p ∈ ((scored st q).mergeSort rankLE).take (min k st.index.length),
      p.1 < st.index.length ∧ p = (p.1, simAt st q p.1) :=
    fun p hp => hmemranked p (List.mem_of_mem_take hp)
  have hfilter : (((scored st q).mergeSort rankLE).take (min k st.index.length)).filter
      (fun p => p.1 < st.metadata.length) =
      ((scored st q).mergeSort rankLE).take (min k st.index.length) := by
    rw [List.filter_eq_self]
    intro p hp
    rw [decide_eq_true_eq, hmd]
    exact (hmempicked p hp).1
  rw [hfilter] at hsearch
  refine ⟨(((scored st q).mergeSort rankLE).take (min k st.index.length)).map Prod.fst,
    ?_, ?_, ?_, ?_, ?_, ?_⟩
  · rw [hsearch]
    congr 1
    have hpick := list_eq_map_fst (fun i => simAt st q i)
      (((scored st q).mergeSort rankLE).take (min k st.index.length))
      (fun p hp => congrArg Prod.snd (hmempicked p hp).2)
    conv_lhs => rw [hpick]
    rw [List.map_map]
    rfl
  · rw [List.length_map, List.length_take, hperm.length_eq, scored_length]
    omega
  · have h1 : ((((scored st q).mergeSort rankLE)).map Prod.fst).Nodup := by
      have hpm : ((((scored st q).mergeSort rankLE)).map Prod.fst).Perm
          ((scored st q).map Prod.fst) := hperm.map Prod.fst
      have hsfst : (scored st q).map Prod.fst = List.range st.index.length := by
        unfold scored
        rw [List.map_map]
        exact List.enum_map_fst st.index
      rw [hsfst] at hpm
      exact (List.nodup_range _).perm hpm.symm
    rw [List.map_take]
    exact h1.sublist (List.take_sublist _ _)
  · intro i hi
    obtain ⟨p, hp, hpi⟩ := List.mem_map.mp hi
    rw [← hpi]
    exact (hmempicked p hp).1
  · have hp2 : List.Pairwise (fun a b => rankLE a b = true)
        (((scored st q).mergeSort rankLE).take (min k st.index.length)) :=
      List.Pairwise.sublist (List.take_sublist _ _) hsorted
    have hpick := list_eq_map_fst (fun i => simAt st q i)
      (((scored st q).mergeSort rankLE).take (min k st.index.length))
      (fun p hp => congrArg Prod.snd (hmempicked p hp).2)
    rw [hpick, List.pairwise_map] at hp2
    exact hp2
  · intro i hi j hj hnot
    obtain ⟨p, hp, hpi⟩ := List.mem_map.mp hi
    have hip : (i, simAt st q i) ∈
        ((scored st q).mergeSort rankLE).take (min k st.index.length) := by
      have hpe : p = (i, simAt st q i) := by
        rw [(hmempicked p hp).2, hpi]
      rw [← hpe]
      exact hp
    have hjr : (j, simAt st q j) ∈ (scored st q).mergeSort rankLE :=
      hperm.mem_iff.mpr (mem_scored_of_lt hj)
    have hsplit := List.take_append_drop (min k st.index.length)
      ((scored st q).mergeSort rankLE)
    rw [← hsplit] at hjr
    rcases List.mem_append.mp hjr with hjin | hjdrop
    · exact absurd (List.mem_map_of_mem Prod.fst hjin) hnot
    · rw [← hsplit] at hsorted
      obtain ⟨-, -, hcross⟩ := List.pairwise_append.mp hsorted
      exact hcross _ hip _ hjdrop

theorem rankLE_val_le {i j : Nat} {s t : Sim} (hs : 0 ≤ s.den) (ht : 0 ≤ t.den)
    (h : rankLE (i, s) (j, t) = true) : t.val ≤ s.val := by
  unfold rankLE at h
  by_cases hb : (simLE s t && simLE t s) = true
  · rw [Bool.and_eq_true] at hb
    exact ((simLE_eq_true_iff ht hs).mp hb.2)
  · rw [if_neg hb] at h
    exact (simLE_eq_true_iff ht hs).mp h

theorem rankLE_val_tie {i j : Nat} {s t : Sim} (hs : 0 ≤ s.den) (ht : 0 ≤ t.den)
    (hij : i ≠ j) (h : rankLE (i, s) (j, t) = true) :
    t.val ≤ s.val ∧ (s.val = t.val → i < j) := by
  refine ⟨rankLE_val_le hs ht h, ?_⟩
  intro heq
  unfold rankLE at h
  by_cases hb : (simLE s t && simLE t s) = true
  · rw [if_pos hb, decide_eq_true_eq] at h
    omega
  · exfalso
    apply hb
    rw [Bool.and_eq_true]
    exact ⟨(simLE_eq_true_iff hs ht).mpr heq.le,
      (simLE_eq_true_iff ht hs).mpr heq.ge⟩

/-- C5: on a consistent store (metadata and index of equal size — an
invariant of every reachable store) and a query of the collection dimension,
`search` returns an empty list on an empty store and otherwise the records at
a list of positions `ps`: each result is the stored record with its cosine
similarity attached (the inner product of the two L2-normalized vectors),
the result count is `top_k` clamped to the record count, the results are
sorted by descending real similarity with ties broken by ascending insertion
position, and the selected positions dominate every unselected position. -/
theorem C5_search_ranking (st : LocalVectorStore) (q : List ℚ) (k : Nat)
    (hmd : st.metadata.length = st.index.length) (hq : q.length = st.dimension) :
    (st.index.length = 0 → search st q k = .ok []) ∧
    ∀ rs, search st q k = .ok rs →
      ∃ ps : List Nat,
        rs = ps.map (fun i =>
          (⟨st.metadata.getD i [], some (simAt st q i)⟩ : ResultItem)) ∧
        rs.length = min k st.index.length ∧
        ps.Nodup ∧ (∀ i ∈ ps, i < st.index.length) ∧
        List.Pairwise (fun i j =>
          (simAt st q j).val ≤ (simAt st q i).val ∧
            ((simAt st q i).val = (simAt st q j).val → i < j)) ps ∧
        (∀ i ∈ ps, ∀ j, j < st.index.length → j ∉ ps →
          (simAt st q j).val ≤ (simAt st q i).val) := by
  have hden : ∀ i, 0 ≤ (simAt st q i).den := fun i => mkSim_den_nonneg q _
  by_cases hz : st.index.length = 0
  · constructor
    · intro _
      unfold search
      rw [if_pos hz]
    · intro rs hrs
      unfold search at hrs
      rw [if_pos hz] at hrs
      injection hrs with hrs
      refine ⟨[], by rw [← hrs]; rfl, ?_, List.nodup_nil, ?_, List.Pairwise.nil, ?_⟩
      · rw [← hrs, hz]
        simp
      · intro i hi
        cases hi
      · intro i hi
        cases hi
  · constructor
    · intro h
      exact absurd h hz
    · intro rs hrs
      obtain ⟨ps, heq, hlen, hnd, hrange, hpair, hopt⟩ := search_ok_spec st q k hmd hq hz
      rw [hrs] at heq
      injection heq with heq
      refine ⟨ps, heq, by rw [heq, List.length_map]; exact hlen, hnd, hrange, ?_, ?_⟩
      · have hand := hpair.and hnd
        refine hand.imp ?_
        rintro i j ⟨hr, hij⟩
        exact rankLE_val_tie (hden i) (hden j) hij hr
      · intro i hi j hj hnot
        exact rankLE_val_le (hden i) (hden j) (hopt i hi j hj hnot)

/-- C5 witness: the one-record dimension-3 store with the matching query
`[1, 0, 0]`. -/
theorem C5_search_ranking_witness :
    (exampleStore3.metadata.length = exampleStore3.index.length ∧
      [(1 : ℚ), 0, 0].length = exampleStore3.dimension) ∧
    ((exampleStore3.index.length = 0 → search exampleStore3 [1, 0, 0] 5 = .ok []) ∧
    ∀ rs, search exampleStore3 [1, 0, 0] 5 = .ok rs →
      ∃ ps : List Nat,
        rs = ps.map (fun i =>
          (⟨exampleStore3.metadata.getD i [],
            some (simAt exampleStore3 [1, 0, 0] i)⟩ : ResultItem)) ∧
        rs.length = min 5 exampleStore3.index.length ∧
        ps.Nodup ∧ (∀ i ∈ ps, i < exampleStore3.index.length) ∧
        List.Pairwise (fun i j =>
          (simAt exampleStore3 [1, 0, 0] j).val ≤ (simAt exampleStore3 [1, 0, 0] i).val ∧
            ((simAt exampleStore3 [1, 0, 0] i).val = (simAt exampleStore3 [1, 0, 0] j).val →
              i < j)) ps ∧
        (∀ i ∈ ps, ∀ j, j < exampleStore3.index.length → j ∉ ps →
          (simAt exampleStore3 [1, 0, 0] j).val ≤ (simAt exampleStore3 [1, 0, 0] i).val)) :=
  ⟨⟨rfl, rfl⟩, C5_search_ranking exampleStore3 [1, 0, 0] 5 rfl rfl⟩

theorem search_result_den_nonneg {st : LocalVectorStore} {q : List ℚ} {k : Nat}
    {rs : List ResultItem} (h : search st q k = .ok rs) :
    ∀ r ∈ rs, 0 ≤ ((r.sim).getD simZero).den := by
  unfold search at h
  split_ifs at h with h1 h2
  · injection h with h
    subst h
    intro r hr
    cases hr
  · dsimp only at h
    injection h with h
    subst h
    intro r hr
    obtain ⟨pp, hp, hpr⟩ := List.mem_map.mp hr
    have hp2 : pp ∈ (scored st q).mergeSort rankLE :=
      List.mem_of_mem_take (List.mem_of_mem_filter hp)
    have hsc := mem_scored_elim
      ((List.mergeSort_perm (scored st q) rankLE).mem_iff.mp hp2)
    rw [← hpr]
    show 0 ≤ ((some pp.2).getD simZero).den
    rw [Option.getD_some]
    have hsim : pp.2 = simAt st q pp.1 := congrArg Prod.snd hsc.2
    rw [hsim]
    exact mkSim_den_nonneg q _

/-- C6: the threshold invariant of the hybrid pipeline.  For a configured
minimum similarity `T` in the unit interval, no result surviving the filter
of `vector_search_tweets` or `vector_search_links` has a real similarity
value strictly below `T`: the filter keeps exactly the results whose score
passes `similarity >= min_similarity`. -/
theorem C6_threshold_invariant (p : RAGPipeline) (qe : List ℚ) (limit : Option Nat)
    (T : ℚ) (hT : p.min_similarity = T) (h0 : 0 ≤ T) (h1 : T ≤ 1) :
    (∀ r ∈ vector_search_tweets p qe limit, (T : ℝ) ≤ ((r.sim).getD simZero).val) ∧
    (∀ r ∈ vector_search_links p qe limit, (T : ℝ) ≤ ((r.sim).getD simZero).val) := by
  constructor
  · intro r hr
    unfold vector_search_tweets at hr
    dsimp only at hr
    cases hsearch : search p.tweet_store qe (pyOrNat limit p.top_k) with
    | error e =>
      rw [hsearch] at hr
      cases hr
    | ok rs =>
      rw [hsearch] at hr
      dsimp only at hr
      rw [List.mem_filter] at hr
      have hden := search_result_den_nonneg hsearch r hr.1
      exact (simGeQ_eq_true_iff hden T).mp (by rw [← hT]; exact hr.2)
  · intro r hr
    unfold vector_search_links at hr
    dsimp only at hr
    cases hsearch : search p.link_store qe (pyOrNat limit p.top_k) with
    | error e =>
      rw [hsearch] at hr
      cases hr
    | ok rs =>
      rw [hsearch] at hr
      dsimp only at hr
      rw [List.mem_filter] at hr
      have hden := search_result_den_nonneg hsearch r hr.1
      exact (simGeQ_eq_true_iff hden T).mp (by rw [← hT]; exact hr.2)

/-- C6 witness: the default pipeline with its default threshold 0.5. -/
theorem C6_threshold_invariant_witness :
    (defaultPipeline.min_similarity = 1 / 2 ∧ (0 : ℚ) ≤ 1 / 2 ∧ (1 : ℚ) / 2 ≤ 1) ∧
    ((∀ r ∈ vector_search_tweets defaultPipeline [1] none,
        (((1 : ℚ) / 2 : ℚ) : ℝ) ≤ ((r.sim).getD simZero).val) ∧
      (∀ r ∈ vector_search_links defaultPipeline [1] none,
        (((1 : ℚ) / 2 : ℚ) : ℝ) ≤ ((r.sim).getD simZero).val)) :=
  ⟨⟨rfl, by norm_num, by norm_num⟩,
    C6_threshold_invariant defaultPipeline [1] none (1 / 2) rfl (by norm_num) (by norm_num)⟩

/-- C7 counterexample: with the default settings (`top_k = 20`) and no
explicit limit, the embedding-unavailable fallback invokes the lexical
provider with limit 20, not with the claimed default of 50: a provider that
returns exactly as many rows as the limit it receives yields 20 rows. -/
theorem C7_counterexample_fallback_limit :
    ((hybrid_search defaultPipeline (fun _ => none)
        (fun _ n => .ok (some (List.replicate n ([] : Record))))
        "q" none).1).length = 20 ∧ (20 : Nat) ≠ 50 := by
  constructor
  · rfl
  · decide

/-- C7 amended: when the embedding provider returns no vector (or an empty
one — both are falsy), `hybrid_search` invokes the lexical provider over the
tweet collection only, with the resolved hybrid limit (the caller limit, or
the configured `top_k` — default 20 — when the limit is absent or zero; NOT
the standalone default of 50 in the `keyword_search` signature), applies no
similarity threshold to the rows, performs no vector search (the result is
independent of both stores), and returns an empty link result set. -/
theorem C7_amended_lexical_fallback (p : RAGPipeline)
    (embed : String → Option (List ℚ))
    (dbq : String → Nat → Except Unit (Option (List Record)))
    (query : String) (limit : Option Nat)
    (hembed : embed query = none ∨ embed query = some []) :
    hybrid_search p embed dbq query limit =
      ((keyword_search dbq query (pyOrNat limit p.top_k)).map
        (fun r => (⟨r, none⟩ : ResultItem)), []) ∧
    ∀ p2 : RAGPipeline, p2.top_k = p.top_k →
      hybrid_search p2 embed dbq query limit = hybrid_search p embed dbq query limit := by
  have hmain : ∀ p3 : RAGPipeline, hybrid_search p3 embed dbq query limit =
      ((keyword_search dbq query (pyOrNat limit p3.top_k)).map
        (fun r => (⟨r, none⟩ : ResultItem)), []) := by
    intro p3
    unfold hybrid_search
    rcases hembed with h | h <;> rw [h]
  refine ⟨hmain p, ?_⟩
  intro p2 htop
  rw [hmain p, hmain p2, htop]

/-- C7 amended witness: a concrete fallback run with an embedding provider
returning none. -/
theorem C7_amended_lexical_fallback_witness :
    ((fun _ : String => (none : Option (List ℚ))) "q" = none ∨
      (fun _ : String => (none : Option (List ℚ))) "q" = some []) ∧
    (hybrid_search defaultPipeline (fun _ => none)
        (fun _ _ => .ok (some [[("tweet_id", Val.vstr "t")]])) "q" none =
      ((keyword_search (fun _ _ => .ok (some [[("tweet_id", Val.vstr "t")]])) "q"
          (pyOrNat none defaultPipeline.top_k)).map
        (fun r => (⟨r, none⟩ : ResultItem)), []) ∧
      ∀ p2 : RAGPipeline, p2.top_k = defaultPipeline.top_k →
        hybrid_search p2 (fun _ => none)
            (fun _ _ => .ok (some [[("tweet_id", Val.vstr "t")]])) "q" none =
          hybrid_search defaultPipeline (fun _ => none)
            (fun _ _ => .ok (some [[("tweet_id", Val.vstr "t")]])) "q" none) :=
  ⟨Or.inl rfl,
    C7_amended_lexical_fallback defaultPipeline (fun _ => none)
      (fun _ _ => .ok (some [[("tweet_id", Val.vstr "t")]])) "q" none (Or.inl rfl)⟩

/-- C8 counterexample: in the short-circuit response the `tokens` key is
absent (modelled as `none`), not present with value zero — the early-return
dict of `RAGPipeline.query` lists only `tweets_found`, `links_found`,
`search_time_ms`, `llm_time_ms` and `total_time_ms`.  This falsifies the
claim that the fixed response carries a zero token count. -/
theorem C8_counterexample_no_tokens_key :
    (queryRun defaultPipeline (fun _ => none) (fun _ _ => .ok none)
      (fun _ _ => ⟨"ans", some "m", 7, some 3⟩) 4 9 "q" true).metadata.tokens = none ∧
    ∀ n : Nat, (queryRun defaultPipeline (fun _ => none) (fun _ _ => .ok none)
      (fun _ _ => ⟨"ans", some "m", 7, some 3⟩) 4 9 "q" true).metadata.tokens ≠ some n := by
  refine ⟨rfl, ?_⟩
  intro n h
  rw [show (queryRun defaultPipeline (fun _ => none) (fun _ _ => .ok none)
      (fun _ _ => (⟨"ans", some "m", 7, some 3⟩ : LLMResult)) 4 9 "q" true).metadata.tokens =
      none from rfl] at h
  cases h

/-- C8 amended: when both hybrid result lists are empty, `query` returns the
fixed no-content response — the fixed answer, empty source lists, the
literal `llm_time_ms = 0`, and no `model` or `tokens` keys — without ever
invoking the generator: the response is the same for every generator. -/
theorem C8_amended_short_circuit (p : RAGPipeline)
    (embed : String → Option (List ℚ))
    (dbq : String → Nat → Except Unit (Option (List Record)))
    (g g2 : String → String → LLMResult) (sT tT : Nat) (q : String) (rsrc : Bool)
    (h1 : (hybrid_search p embed dbq q none).1 = [])
    (h2 : (hybrid_search p embed dbq q none).2 = []) :
    queryRun p embed dbq g sT tT q rsrc =
      { query := q, answer := noContentAnswer,
        sources_tweets := [], sources_links := [],
        metadata := { tweets_found := 0, links_found := 0, search_time_ms := sT,
                      llm_time_ms := 0, total_time_ms := tT, model := none,
                      tokens := none } } ∧
    queryRun p embed dbq g sT tT q rsrc = queryRun p embed dbq g2 sT tT q rsrc := by
  have hmain : ∀ g3 : String → String → LLMResult, queryRun p embed dbq g3 sT tT q rsrc =
      { query := q, answer := noContentAnswer,
        sources_tweets := [], sources_links := [],
        metadata := { tweets_found := 0, links_found := 0, search_time_ms := sT,
                      llm_time_ms := 0, total_time_ms := tT, model := none,
                      tokens := none } } := by
    intro g3
    unfold queryRun
    dsimp only
    rw [h1, h2]
    rfl
  refine ⟨hmain g, ?_⟩
  rw [hmain g, hmain g2]

/-- C8 amended witness: a concrete run in which the embedding is unavailable
and the lexical provider returns nothing. -/
theorem C8_amended_short_circuit_witness :
    ((hybrid_search defaultPipeline (fun _ => none) (fun _ _ => .ok none) "q" none).1 = [] ∧
      (hybrid_search defaultPipeline (fun _ => none) (fun _ _ => .ok none) "q" none).2 = []) ∧
    (queryRun defaultPipeline (fun _ => none) (fun _ _ => .ok none)
        (fun _ _ => ⟨"ans", some "m", 7, some 3⟩) 4 9 "q" true =
      { query := "q", answer := noContentAnswer,
        sources_tweets := [], sources_links := [],
        metadata := { tweets_found := 0, links_found := 0, search_time_ms := 4,
                      llm_time_ms := 0, total_time_ms := 9, model := none,
                      tokens := none } } ∧
      queryRun defaultPipeline (fun _ => none) (fun _ _ => .ok none)
          (fun _ _ => ⟨"ans", some "m", 7, some 3⟩) 4 9 "q" true =
        queryRun defaultPipeline (fun _ => none) (fun _ _ => .ok none)
          (fun _ _ => ⟨"other", none, 0, none⟩) 4 9 "q" true) :=
  ⟨⟨rfl, rfl⟩,
    C8_amended_short_circuit defaultPipeline (fun _ => none) (fun _ _ => .ok none)
      (fun _ _ => ⟨"ans", some "m", 7, some 3⟩) (fun _ _ => ⟨"other", none, 0, none⟩)
      4 9 "q" true rfl rfl⟩

theorem string_length_take (s : String) (n : Nat) :
    (s.take n).length = min n s.length := by
  show (s.take n).data.length = min n s.data.length
  rw [String.data_take, List.length_take]

/-- C9: context formatting is a deterministic build-then-truncate.  The full
text depends only on the first 10 entries of each result set (one labeled
section per non-empty set); the token estimate is the character count
integer-divided by 4; when the estimate exceeds the resolved maximum the
output is exactly the first `max_tokens * 4` characters of the full text
with the fixed marker appended (its length is exactly `max_tokens * 4` plus
the marker length — only the tail is cut); otherwise the output is the full
text.  Determinism is inherent: `format_context` is a pure function of its
inputs. -/
theorem C9_truncation_build_then_cut (p : RAGPipeline)
    (tw li : List ResultItem) (mt : Option Nat) :
    (String.join (contextParts tw li) =
      String.join (contextParts (tw.take 10) (li.take 10))) ∧
    ((String.join (contextParts tw li)).length / 4 > pyOrNat mt p.max_context_tokens →
      format_context p tw li mt =
        (String.join (contextParts tw li)).take
          (pyOrNat mt p.max_context_tokens * 4) ++ truncMarker ∧
      (format_context p tw li mt).length =
        pyOrNat mt p.max_context_tokens * 4 + truncMarker.length) ∧
    ((String.join (contextParts tw li)).length / 4 ≤ pyOrNat mt p.max_context_tokens →
      format_context p tw li mt = String.join (contextParts tw li)) := by
  have hiso : ∀ l : List ResultItem, (l.take 10).isEmpty = l.isEmpty := by
    intro l
    cases l <;> rfl
  have htt : ∀ l : List ResultItem, (l.take 10).take 10 = l.take 10 := by
    intro l
    rw [List.take_take]
    norm_num
  have hparts : contextParts tw li = contextParts (tw.take 10) (li.take 10) := by
    unfold contextParts
    rw [hiso tw, hiso li, htt tw, htt li]
  have hfc : format_context p tw li mt =
      (if (String.join (contextParts tw li)).length / 4 >
          pyOrNat mt p.max_context_tokens
        then (String.join (contextParts tw li)).take
          (pyOrNat mt p.max_context_tokens * 4) ++ truncMarker
        else String.join (contextParts tw li)) := rfl
  refine ⟨by rw [hparts], ?_, ?_⟩
  · intro h
    have heq : format_context p tw li mt =
        (String.join (contextParts tw li)).take
          (pyOrNat mt p.max_context_tokens * 4) ++ truncMarker := by
      rw [hfc, if_pos h]
    refine ⟨heq, ?_⟩
    rw [heq, String.length_append, string_length_take]
    have : pyOrNat mt p.max_context_tokens * 4 ≤
        (String.join (contextParts tw li)).length := by
      omega
    omega
  · intro h
    rw [hfc, if_neg (by omega)]

set_option maxRecDepth 40000 in
/-- C9 witness: a single tweet row rendering to a 200-character context with
`max_tokens = 10` gives an output of exactly 40 characters plus the fixed
38-character marker. -/
theorem C9_truncation_build_then_cut_witness :
    ((String.join (contextParts [tweet200] [])).length = 200 ∧
      (String.join (contextParts [tweet200] [])).length / 4 >
        pyOrNat (some 10) defaultPipeline.max_context_tokens) ∧
    (format_context defaultPipeline [tweet200] [] (some 10) =
        (String.join (contextParts [tweet200] [])).take 40 ++ truncMarker ∧
      (format_context defaultPipeline [tweet200] [] (some 10)).length =
        40 + truncMarker.length ∧ truncMarker.length = 38) := by
  have h200 : (String.join (contextParts [tweet200] [])).length = 200 := by decide
  have hgt : (String.join (contextParts [tweet200] [])).length / 4 >
      pyOrNat (some 10) defaultPipeline.max_context_tokens := by
    rw [h200]
    decide
  have h := (C9_truncation_build_then_cut defaultPipeline [tweet200] [] (some 10)).2.1 hgt
  exact ⟨⟨h200, hgt⟩, h.1, h.2, by decide⟩

/-- C10 counterexample: `search` returns the stored record with its nested
list reference shared, and in-place mutation through that reference alters
the value reachable from the stored record.  The store holds one record
whose `tags` value is the reference `vlist 0`; the search result carries the
same reference; appending through it changes what the stored record's
`tags` entry denotes.  So mutating a returned result (in place, through a
nested value) does alter the stored record, falsifying the fresh-copy
claim. -/
theorem C10_counterexample_shared_nested_ref :
    search sharedRefStore [1] 5 =
      .ok [⟨[("tweet_id", Val.vstr "a"), ("tags", Val.vlist 0)],
        some (mkSim [1] [1])⟩] ∧
    getVal (sharedRefStore.metadata.getD 0 []) "tags" = some (Val.vlist 0) ∧
    resolveList sharedRefHeap (Val.vlist 0) = some [Val.vstr "x"] ∧
    heapListAppend sharedRefHeap 0 (Val.vstr "y") = [[Val.vstr "x", Val.vstr "y"]] ∧
    resolveList (heapListAppend sharedRefHeap 0 (Val.vstr "y")) (Val.vlist 0) ≠
      resolveList sharedRefHeap (Val.vlist 0) := by
  have hms : (scored sharedRefStore [1]).mergeSort rankLE = [(0, mkSim [1] [1])] := by
    rw [show scored sharedRefStore [1] = [(0, mkSim [1] [1])] from rfl,
      List.mergeSort_singleton]
  refine ⟨?_, rfl, rfl, rfl, ?_⟩
  · unfold search
    rw [if_neg (by decide), if_neg (by decide)]
    dsimp only
    rw [hms]
    rfl
  intro h
  rw [show resolveList (heapListAppend sharedRefHeap 0 (Val.vstr "y")) (Val.vlist 0) =
      some [Val.vstr "x", Val.vstr "y"] from rfl,
    show resolveList sharedRefHeap (Val.vlist 0) = some [Val.vstr "x"] from rfl] at h
  injection h with h
  cases h

/-- C10 amended: `search` reads the store without changing it (its body
assigns no field and never persists) and each returned result is a fresh
top-level mapping — the stored record at some in-range position with the
similarity attached — so replacing top-level entries of a result does not
alter the store; nested list and dict values, however, are shared by
reference (`dict(...)` copies only the top level), so in-place mutation of a
nested value through a returned result does alter the stored record. -/
theorem C10_amended_results_are_shallow_copies (st : LocalVectorStore)
    (q : List ℚ) (k : Nat) (rs : List ResultItem) (h : search st q k = .ok rs) :
    ∀ r ∈ rs, ∃ i, i < st.metadata.length ∧ r.record = st.metadata.getD i [] ∧
      r.sim = some (simAt st q i) := by
  unfold search at h
  split_ifs at h with h1 h2
  · injection h with h
    subst h
    intro r hr
    cases hr
  · dsimp only at h
    injection h with h
    subst h
    intro r hr
    obtain ⟨pp, hp, hpr⟩ := List.mem_map.mp hr
    have hfil := List.of_mem_filter hp
    have hlt : pp.1 < st.metadata.length := of_decide_eq_true hfil
    have hp2 : pp ∈ (scored st q).mergeSort rankLE :=
      List.mem_of_mem_take (List.mem_of_mem_filter hp)
    have hsc := mem_scored_elim
      ((List.mergeSort_perm (scored st q) rankLE).mem_iff.mp hp2)
    refine ⟨pp.1, hlt, ?_, ?_⟩
    · rw [← hpr]
    · rw [← hpr]
      show some pp.2 = some (simAt st q pp.1)
      rw [congrArg Prod.snd hsc.2]

/-- C10 amended witness: concrete instantiation on the shared-reference
store. -/
theorem C10_amended_results_are_shallow_copies_witness :
    search sharedRefStore [1] 5 =
      .ok [⟨[("tweet_id", Val.vstr "a"), ("tags", Val.vlist 0)],
        some (mkSim [1] [1])⟩] ∧
    ∀ r ∈ [(⟨[("tweet_id", Val.vstr "a"), ("tags", Val.vlist 0)],
        some (mkSim [1] [1])⟩ : ResultItem)],
      ∃ i, i < sharedRefStore.metadata.length ∧
        r.record = sharedRefStore.metadata.getD i [] ∧
        r.sim = some (simAt sharedRefStore [1] i) := by
  have hms : (scored sharedRefStore [1]).mergeSort rankLE = [(0, mkSim [1] [1])] := by
    rw [show scored sharedRefStore [1] = [(0, mkSim [1] [1])] from rfl,
      List.mergeSort_singleton]
  have hs : search sharedRefStore [1] 5 =
      .ok [⟨[("tweet_id", Val.vstr "a"), ("tags", Val.vlist 0)],
        some (mkSim [1] [1])⟩] := by
    unfold search
    rw [if_neg (by decide), if_neg (by decide)]
    dsimp only
    rw [hms]
    rfl
  exact ⟨hs, C10_amended_results_are_shallow_copies sharedRefStore [1] 5 _ hs⟩

end XSearch
